import Mathlib

/-!
# Verification of the hwpers HWP/HWPX reader core

A shallow embedding, in Lean 4, of the reading pipeline of the hwpers
library (src/lib.rs, src/rag.rs) together with the collaborator modules
that pipeline consumes.  Byte streams are `List Nat` (each element a byte
value), UTF-16 code units are `Nat`, and Rust strings are `List Char`.
The compound-file (CFB) container is embedded at the stream-map level of
its interface contract: a container value is the finite association of
stream names to stream bytes.  Fallible Rust functions returning
`Result<T, HwpError>` become `Except HwpError T`.

Definitions carrying a doc comment starting with "Modelled from the spec:"
embed modules of this repository that are referenced by src/lib.rs /
src/rag.rs but whose sources are not part of the reviewed tree (writer,
parser, crypto, utils, model, hwpx); they follow the repository
specification's description of those modules.
-/

namespace Hwpers

deriving instance DecidableEq for Except

/-- The typed error of the library: the error kinds of spec §7, matching the
`HwpError` variants constructed in src/lib.rs and src/rag.rs. -/
inductive HwpError where
  | notHwpFile (msg : String)
  | unsupportedVersion (msg : String)
  | invalidFormat (msg : String)
  | parseError (msg : String)
  | ioError (msg : String)
  | streamNotFound (msg : String)
  | cryptoError (msg : String)
deriving DecidableEq, Repr

/-- Little-endian 32-bit word assembled from the first four bytes of a list
(0 when fewer than four bytes are present; all call sites supply at least
four). -/
def leWord : List Nat → Nat
  | b0 :: b1 :: b2 :: b3 :: _ => b0 + 256 * b1 + 65536 * b2 + 16777216 * b3
  | _ => 0

/-- The four little-endian bytes of a 32-bit word. -/
def encodeLE4 (w : Nat) : List Nat :=
  [w % 256, w / 256 % 256, w / 65536 % 256, w / 16777216 % 256]

/-- A tagged record, the universal framing unit of the legacy binary
streams (spec §3, §4.2): tag id, nesting level, raw payload bytes. -/
structure HwpRecord where
  tag : Nat
  level : Nat
  payload : List Nat
deriving DecidableEq, Repr

/-- Modelled from the spec: the record-stream emitter (§4.2, §6; module
`RecordStream`, not under src/).  Packs `tag_id | (level << 10) | (size << 20)`
into a little-endian header word; a payload exceeding 4095 bytes sets the
size bits to 0xFFF and appends the true size as an extended 32-bit word. -/
def emitRecord (r : HwpRecord) : List Nat :=
  if 4095 < r.payload.length then
    encodeLE4 (r.tag + 1024 * r.level + 1048576 * 4095) ++
      encodeLE4 r.payload.length ++ r.payload
  else
    encodeLE4 (r.tag + 1024 * r.level + 1048576 * r.payload.length) ++ r.payload

/-- Concatenated emission of a record sequence (spec §4.2). -/
def emitRecords (rs : List HwpRecord) : List Nat := rs.flatMap emitRecord

/-- Modelled from the spec: the record-stream parser (§4.2, §6; module
`RecordStream`, not under src/).  Reads header words (size bits 0xFFF mean
an extended size word follows), slices exactly `size` payload bytes, stops
at an exact boundary, and fails with the truncated-record flavour of
*invalid-format* otherwise.  `fuel` bounds the iteration count; every call
site passes the byte length of the buffer, which a well-formed parse can
never exhaust since each record consumes at least four bytes. -/
def parseRecords : Nat → List Nat → Except HwpError (List HwpRecord)
  | _, [] => .ok []
  | 0, _ :: _ => .error (.invalidFormat "Truncated record")
  | _ + 1, [_] => .error (.invalidFormat "Truncated record")
  | _ + 1, [_, _] => .error (.invalidFormat "Truncated record")
  | _ + 1, [_, _, _] => .error (.invalidFormat "Truncated record")
  | fuel + 1, b0 :: b1 :: b2 :: b3 :: rest =>
    let w := b0 + 256 * b1 + 65536 * b2 + 16777216 * b3
    let tag := w % 1024
    let level := w / 1024 % 1024
    let size0 := w / 1048576
    if size0 = 4095 then
      if rest.length < 4 then .error (.invalidFormat "Truncated record")
      else
        let size := leWord (rest.take 4)
        let rest2 := rest.drop 4
        if rest2.length < size then .error (.invalidFormat "Truncated record")
        else
          match parseRecords fuel (rest2.drop size) with
          | .ok rs => .ok (⟨tag, level, rest2.take size⟩ :: rs)
          | .error e => .error e
    else
      if rest.length < size0 then .error (.invalidFormat "Truncated record")
      else
        match parseRecords fuel (rest.drop size0) with
        | .ok rs => .ok (⟨tag, level, rest.take size0⟩ :: rs)
        | .error e => .error e

/-- A record is well formed for the wire format when its tag and level fit
their 10-bit fields, its payload size fits the 32-bit extended size word,
and the payload does not hit the 4095-byte boundary at which the emitter
of §4.2 (which extends only *beyond* 4095 bytes) and the parser (which
treats size bits 0xFFF as extended) disagree. -/
def HwpRecord.wf (r : HwpRecord) : Prop :=
  r.tag < 1024 ∧ r.level < 1024 ∧ r.payload.length < 4294967296 ∧
    r.payload.length ≠ 4095

instance (r : HwpRecord) : Decidable r.wf := by
  unfold HwpRecord.wf; infer_instance

/-! ## Compressor (spec §4.3) -/

/-- Modelled from the spec: the `deflate` direction of the Compressor
(§4.3; module `utils`, not under src/) — raw DEFLATE, RFC 1951, restricted
to stored (BTYPE = 00) blocks, which is the fragment of the format the
paired `decompress` below accepts.  Each block is a block-header byte
(BFINAL in bit 0, BTYPE = 00), LEN as two little-endian bytes, NLEN as its
ones complement, then LEN literal bytes; at most 65535 bytes per block. -/
def deflateGo : Nat → List Nat → List Nat
  | 0, bs =>
    1 :: bs.length % 256 :: bs.length / 256 ::
      (255 - bs.length % 256) :: (255 - bs.length / 256) :: bs
  | fuel + 1, bs =>
    if bs.length ≤ 65535 then
      1 :: bs.length % 256 :: bs.length / 256 ::
        (255 - bs.length % 256) :: (255 - bs.length / 256) :: bs
    else
      0 :: 255 :: 255 :: 0 :: 0 ::
        (bs.take 65535 ++ deflateGo fuel (bs.drop 65535))

/-- The block chunking of `deflate`: a final stored block for at most
65535 bytes, otherwise a full non-final stored block and a recursive
tail.  The fuel (one unit per emitted block, exhausted only once the
remainder fits a final block) is the byte count. -/
def deflateChunks (bs : List Nat) : List Nat := deflateGo bs.length bs

/-- Modelled from the spec: the block loop of the `inflate` direction of
the Compressor (§4.3).  Stored blocks are copied verbatim; any other block
type is refused.  `fuel` bounds the block count; `decompress` passes one
more than the byte length, which a parse can never exhaust since every
block consumes at least five bytes. -/
def inflateLoop : Nat → List Nat → Except HwpError (List Nat)
  | _, [] => .error (.ioError "decompress: truncated stream")
  | 0, _ :: _ => .error (.ioError "decompress: block limit")
  | _ + 1, [_] => .error (.ioError "decompress: truncated stored block")
  | _ + 1, [_, _] => .error (.ioError "decompress: truncated stored block")
  | _ + 1, [_, _, _] => .error (.ioError "decompress: truncated stored block")
  | _ + 1, [_, _, _, _] => .error (.ioError "decompress: truncated stored block")
  | fuel + 1, b :: l0 :: l1 :: n0 :: n1 :: rest2 =>
    if b ≤ 1 then
      if n0 = 255 - l0 ∧ n1 = 255 - l1 then
        let len := l0 + 256 * l1
        if len ≤ rest2.length then
          if b = 1 then
            if rest2.drop len = [] then .ok (rest2.take len)
            else .error (.ioError "decompress: trailing data")
          else
            match inflateLoop fuel (rest2.drop len) with
            | .ok tl => .ok (rest2.take len ++ tl)
            | .error e => .error e
        else .error (.ioError "decompress: truncated stored block")
      else .error (.ioError "decompress: corrupt stored block")
    else .error (.ioError "decompress: unsupported block type")

/-- Modelled from the spec: `inflate(bytes) -> bytes` of the Compressor
(§4.3; `crate::utils::decompress` referenced from src/lib.rs). -/
def decompress (bs : List Nat) : Except HwpError (List Nat) :=
  inflateLoop (bs.length + 1) bs

/-! ## UTF-16 text (spec §3, §4.7) -/

/-- The UTF-16 code units of one Unicode scalar value (a Lean `Char`):
one unit below 0x10000, a surrogate pair above. -/
def encodeUtf16 (c : Char) : List Nat :=
  if c.toNat < 65536 then [c.toNat]
  else
    [55296 + (c.toNat - 65536) / 1024, 56320 + (c.toNat - 65536) % 1024]

/-- The UTF-16 code-unit sequence of a string (spec §3: a run owns a
UTF-16 code-unit sequence). -/
def strUtf16 (s : List Char) : List Nat := s.flatMap encodeUtf16

/-- UTF-16LE serialization of code units, two bytes per unit. -/
def utf16leBytes (units : List Nat) : List Nat :=
  units.flatMap (fun u => [u % 256, u / 256 % 256])

/-- UTF-16LE deserialization: byte pairs back to code units (a dangling
odd byte is dropped). -/
def decodeUtf16leBytes : List Nat → List Nat
  | b0 :: b1 :: rest => (b0 + 256 * b1) :: decodeUtf16leBytes rest
  | _ => []

/-- One lone UTF-16 code unit as a scalar: direct below the surrogate
range and in [0xE000, 0x10000); U+FFFD for an unpaired surrogate. -/
def decodeOneUnit (u : Nat) : Char :=
  if u < 55296 ∨ (57344 ≤ u ∧ u < 65536) then Char.ofNat u
  else Char.ofNat 65533

/-- Lossy UTF-16 decoding of code units into Unicode scalars, replacing
unpaired surrogates with U+FFFD. -/
def decodeUtf16 : List Nat → List Char
  | [] => []
  | [u] => [decodeOneUnit u]
  | u :: v :: rest =>
    if u < 55296 ∨ (57344 ≤ u ∧ u < 65536) then
      Char.ofNat u :: decodeUtf16 (v :: rest)
    else if u < 56320 then
      if 56320 ≤ v ∧ v < 57344 then
        Char.ofNat (65536 + (u - 55296) * 1024 + (v - 56320)) ::
          decodeUtf16 rest
      else Char.ofNat 65533 :: decodeUtf16 (v :: rest)
    else Char.ofNat 65533 :: decodeUtf16 (v :: rest)

/-- Modelled from the spec: the in-band control walk of the BodyText
decoder (§4.7).  Code units below 0x20 whose semantic is "inline object"
occupy eight code units — the control plus seven units (14 bytes) of
parameter payload — and are dropped from extracted text; the plain
controls newline (0x000A) and carriage return (0x000D) occupy one unit
and are kept.  (§9 leaves the exact inline-object table open; this model
takes every control except 0x000A/0x000D as inline-object, per §4.7's
enumeration of tabs, line-break markers, tables and shapes.) -/
def walkCtrlGo : Nat → List Nat → List Nat
  | 0, l => l
  | _ + 1, [] => []
  | fuel + 1, u :: rest =>
    if u < 32 ∧ u ≠ 10 ∧ u ≠ 13 then walkCtrlGo fuel (rest.drop 7)
    else u :: walkCtrlGo fuel rest

/-- The control walk over a unit sequence; the fuel (one unit per input
code unit, never exhausted since every step consumes at least one) is the
sequence length. -/
def walkCtrl (units : List Nat) : List Nat := walkCtrlGo units.length units


/-- Join string pieces with a single newline between consecutive pieces
(Rust `Vec::join("\\n")`; also the paragraph separator of
`extract_text`). -/
def joinNl : List (List Char) → List Char
  | [] => []
  | [l] => l
  | l :: l2 :: ls => l ++ '\n' :: joinNl (l2 :: ls)

/-! ## CFB container (spec §4.1) -/

/-- Modelled from the spec: the CFB compound-file container at the
interface level of §4.1 (`CompoundReader`; crate module `reader`, not
under src/): a finite association of case-sensitive stream names (path
separators denote storage nesting) to stream bytes.  A container value
embeds the byte sequence of a compound file. -/
structure CfbReader where
  streams : List (String × List Nat)
deriving DecidableEq

def CfbReader.find : List (String × List Nat) → String → Option (List Nat)
  | [], _ => none
  | (k, v) :: rest, name => if name = k then some v else CfbReader.find rest name

/-- `read_stream(name) -> bytes`; a missing stream fails with
*stream-not-found* (spec §4.1). -/
def CfbReader.read_stream (r : CfbReader) (name : String) :
    Except HwpError (List Nat) :=
  match CfbReader.find r.streams name with
  | some d => .ok d
  | none => .error (.streamNotFound name)

/-- `stream_exists(name)` (spec §4.1). -/
def CfbReader.stream_exists (r : CfbReader) (name : String) : Bool :=
  (CfbReader.find r.streams name).isSome

/-! ## File header (spec §4.5) -/

/-- The 17 bytes of the magic signature "HWP Document File". -/
def hwpSignature : List Nat :=
  [72, 87, 80, 32, 68, 111, 99, 117, 109, 101, 110, 116, 32, 70, 105, 108, 101]

/-- The parsed file header: version quadruple and flag word, with the raw
bytes preserved (spec §3, §4.5). -/
structure FileHeader where
  version : Nat
  flags : Nat
  raw : List Nat
deriving DecidableEq

/-- Modelled from the spec: HeaderCodec.parse (§4.5; module
`parser::header`, not under src/).  Validates the 17-byte signature
exactly (mismatch fails with *not-an-HWP-file*), then decodes the version
quadruple and the flag word from the 32 logical header bytes. -/
def FileHeader.parse (data : List Nat) : Except HwpError FileHeader :=
  if data.take 17 = hwpSignature ∧ 32 ≤ data.length then
    .ok ⟨leWord ((data.drop 17).take 4), leWord ((data.drop 21).take 4), data⟩
  else .error (.notHwpFile "Invalid HWP file signature")

/-- Flag bit 0: streams other than the header are DEFLATE-compressed. -/
def FileHeader.is_compressed (h : FileHeader) : Bool := h.flags.testBit 0

/-- Flag bit 1: the document is password-encrypted. -/
def FileHeader.is_encrypted (h : FileHeader) : Bool := h.flags.testBit 1

/-- Flag bit 2: distribution document (`ViewText`, AES-encrypted bodies). -/
def FileHeader.is_distribute (h : FileHeader) : Bool := h.flags.testBit 2

/-! ## Distribution crypto (spec §4.4) -/

/-- Modelled from the spec: DistributionCrypto (§4.4; crate module
`crypto`, not under src/) — derive an AES-128 key from the 260-byte
distribution record and decrypt the stream body in ECB mode.  Every claim
below depends only on *which bytes* this function receives, never on the
value it produces, so the cipher itself is modelled as a record-keyed
bytewise transformation. -/
def decrypt_distribution_stream (data : List Nat) (dist_record : List Nat) :
    Except HwpError (List Nat) :=
  .ok (data.map
    (fun b => (b + dist_record.foldl (fun a x => (a + x) % 256) 0) % 256))

/-! ## Record-stream parsers (spec §4.6, §4.7) -/

/-- The document-information block: the decoded record stream of the
DocInfo stream (spec §4.6), kept as records. -/
structure DocInfo where
  records : List HwpRecord
deriving DecidableEq

/-- Modelled from the spec: DocInfoCodec.decode (§4.6; module
`parser::doc_info`, not under src/): inflate when the compressed flag is
set, then parse the tagged record stream. -/
def DocInfoParser.parse (data : List Nat) (is_compressed : Bool) :
    Except HwpError DocInfo := do
  let d ← if is_compressed then decompress data else pure data
  let rs ← parseRecords d.length d
  pure ⟨rs⟩

/-- Record tag ids of the BodyText record stream recognized by the
decoder (spec §4.7). -/
def hwptagParaHeader : Nat := 66

/-- Paragraph-text record tag (spec §4.7). -/
def hwptagParaText : Nat := 67

/-- Paragraph-char-shape record tag (spec §4.7). -/
def hwptagParaCharShape : Nat := 68

/-- Paragraph-line-segment record tag (spec §4.7). -/
def hwptagParaLineSeg : Nat := 69

/-- Text of one paragraph-text record payload: UTF-16LE bytes to code
units, the in-band control walk, then scalar decoding (spec §4.7). -/
def decodeParaText (bs : List Nat) : List Char :=
  decodeUtf16 (walkCtrl (decodeUtf16leBytes bs))

/-- Modelled from the spec: the paragraph builder of BodyTextCodec
(§4.7).  A paragraph-header record starts a new paragraph; paragraph-text
records accumulate its extracted text; other records carry no extracted
text.  A paragraph is represented by its extracted text (the
concatenation of its runs' text, which is all `extract_text` consumes). -/
def buildParas : Option (List Char) → List HwpRecord → List (List Char)
  | cur, [] => cur.toList
  | cur, r :: rest =>
    if r.tag = hwptagParaHeader then
      cur.toList ++ buildParas (some []) rest
    else if r.tag = hwptagParaText then
      match cur with
      | some t => buildParas (some (t ++ decodeParaText r.payload)) rest
      | none => buildParas none rest
    else buildParas cur rest

/-- One decoded section: its ordered paragraphs (spec §3). -/
structure BodyText where
  paragraphs : List (List Char)
deriving DecidableEq

/-- Modelled from the spec: BodyTextCodec.decode (§4.7; module
`parser::body_text`, not under src/): inflate when the compressed flag is
set, parse the record stream, build the paragraph list. -/
def BodyTextParser.parse (data : List Nat) (is_compressed : Bool) :
    Except HwpError BodyText := do
  let d ← if is_compressed then decompress data else pure data
  let rs ← parseRecords d.length d
  pure ⟨buildParas none rs⟩

/-! ## Preview and summary blocks (spec §6, optional streams) -/

/-- Preview text block: UTF-16LE, null-terminated (spec §6). -/
structure PreviewText where
  text : List Char
deriving DecidableEq

/-- Modelled from the spec: PrvText decoding (§6): UTF-16LE code units up
to the null terminator. -/
def PreviewText.from_bytes (data : List Nat) : Except HwpError PreviewText :=
  .ok ⟨decodeUtf16 ((decodeUtf16leBytes data).takeWhile (fun u => u ≠ 0))⟩

/-- Preview image block: raw bytes, returned opaquely (spec §6, §9). -/
structure PreviewImage where
  data : List Nat
deriving DecidableEq

/-- Modelled from the spec: PrvImage bytes kept opaquely (§6, §9). -/
def PreviewImage.from_bytes (data : List Nat) : PreviewImage := ⟨data⟩

/-- Summary-information block (OLE property set), kept opaquely. -/
structure SummaryInfo where
  data : List Nat
deriving DecidableEq

/-- Modelled from the spec: the summary stream kept opaquely (§6). -/
def SummaryInfo.from_bytes (data : List Nat) : Except HwpError SummaryInfo :=
  .ok ⟨data⟩

/-! ## Document model (spec §4.9) and HwpReader (src/lib.rs) -/

/-- The in-memory document: header, document info, ordered sections,
optional preview/summary blocks (spec §3, §4.9; `HwpDocument` of the
`model` module). -/
structure HwpDocument where
  header : FileHeader
  doc_info : DocInfo
  body_texts : List BodyText
  preview_text : Option PreviewText
  preview_image : Option PreviewImage
  summary_info : Option SummaryInfo
deriving DecidableEq

/-- Modelled from the spec: `Document.extract_text()` (§4.7, §4.9):
the paragraph texts of all sections in order, joined with a newline
between consecutive paragraphs. -/
def HwpDocument.extract_text (doc : HwpDocument) : List Char :=
  joinNl (doc.body_texts.flatMap (fun s => s.paragraphs))

/-- `Document.is_encrypted()` (spec §4.9). -/
def HwpDocument.is_encrypted (doc : HwpDocument) : Bool :=
  doc.header.is_encrypted

/-- `Document.is_distribution_document()` (spec §4.9). -/
def HwpDocument.is_distribution_document (doc : HwpDocument) : Bool :=
  doc.header.is_distribute

/-- src/lib.rs `HwpReader::read_preview_text`. -/
def HwpReader.read_preview_text (reader : CfbReader) :
    Except HwpError PreviewText := do
  let data ← reader.read_stream "PrvText"
  PreviewText.from_bytes data

/-- src/lib.rs `HwpReader::read_preview_image`. -/
def HwpReader.read_preview_image (reader : CfbReader) :
    Except HwpError PreviewImage := do
  let data ← reader.read_stream "PrvImage"
  pure (PreviewImage.from_bytes data)

/-- src/lib.rs `HwpReader::read_summary_info`. -/
def HwpReader.read_summary_info (reader : CfbReader) :
    Except HwpError SummaryInfo := do
  let data ← reader.read_stream "\x05HwpSummaryInformation"
  SummaryInfo.from_bytes data

/-- src/lib.rs `HwpReader::read_distribution_record` (lines 124–143):
read DocInfo, decompress when the compressed flag is set, require at
least 260 bytes, and return the first 260 bytes. -/
def HwpReader.read_distribution_record (reader : CfbReader)
    (is_compressed : Bool) : Except HwpError (List Nat) := do
  let doc_info_data ← reader.read_stream "DocInfo"
  let decompressed ←
    if is_compressed then decompress doc_info_data else pure doc_info_data
  if decompressed.length < 260 then
    .error (.parseError "DocInfo too short to contain distribution data")
  else
    pure (decompressed.take 260)

/-- src/lib.rs `HwpReader::decrypt_stream` (lines 145–159): with a
distribution record present, streams shorter than 260 bytes pass through
unchanged; otherwise the bytes after the 260-byte prologue are decrypted.
Without a distribution record the stream passes through. -/
def HwpReader.decrypt_stream (data : List Nat) (_header : FileHeader)
    (distribution_record : Option (List Nat)) : Except HwpError (List Nat) :=
  match distribution_record with
  | some dist_record =>
    if data.length < 260 then .ok data
    else decrypt_distribution_stream (data.drop 260) dist_record
  | none => .ok data

/-- src/lib.rs `HwpReader::parse_document`, the section loop (lines
74–87): read `<pre><idx>` streams for consecutive indices, decrypting and
parsing each, until the first missing index.  `fuel` bounds the
iteration; `parse_document` passes one more than the container's stream
count, which the loop can never exhaust since each iteration requires a
further distinct stream to exist. -/
def HwpReader.collectSections (reader : CfbReader) (header : FileHeader)
    (distribution_record : Option (List Nat)) (pre : String) :
    Nat → Nat → Except HwpError (List BodyText)
  | 0, _ => .ok []
  | fuel + 1, idx => do
    let section_name := pre ++ Nat.repr idx
    if reader.stream_exists section_name then do
      let section_data ← reader.read_stream section_name
      let section_decrypted ←
        HwpReader.decrypt_stream section_data header distribution_record
      let body_text ← BodyTextParser.parse section_decrypted header.is_compressed
      let rest ←
        HwpReader.collectSections reader header distribution_record pre fuel
          (idx + 1)
      pure (body_text :: rest)
    else
      pure []

/-- src/lib.rs `HwpReader::parse_document` (lines 41–107), transliterated:
header, password check, optional distribution record, DocInfo, the
section loop over `BodyText/Section<N>` or `ViewText/Section<N>`, the
non-empty-sections check, and the optional preview/summary streams. -/
def HwpReader.parse_document (reader : CfbReader) :
    Except HwpError HwpDocument := do
  let header_data ← reader.read_stream "FileHeader"
  let header ← FileHeader.parse header_data
  if header.is_encrypted then
    .error (.unsupportedVersion "Password-encrypted documents are not supported")
  else do
    let distribution_record ←
      if header.is_distribute then
        Except.map some (HwpReader.read_distribution_record reader
          header.is_compressed)
      else pure none
    let doc_info_data ← reader.read_stream "DocInfo"
    let doc_info_decrypted ←
      HwpReader.decrypt_stream doc_info_data header distribution_record
    let doc_info ← DocInfoParser.parse doc_info_decrypted header.is_compressed
    let pre := if header.is_distribute then "ViewText/Section"
      else "BodyText/Section"
    let body_texts ← HwpReader.collectSections reader header
      distribution_record pre (reader.streams.length + 1) 0
    if body_texts.isEmpty then
      .error (.invalidFormat "No BodyText sections found")
    else
      let preview_text := (HwpReader.read_preview_text reader).toOption
      let preview_image := (HwpReader.read_preview_image reader).toOption
      let summary_info := (HwpReader.read_summary_info reader).toOption
      .ok ⟨header, doc_info, body_texts, preview_text, preview_image,
        summary_info⟩

/-- src/lib.rs `HwpReader::from_bytes`: the CFB layer is embedded at the
stream-map level (§4.1), so the writer-produced byte sequence is embedded
as its decoded container value and `from_bytes` is `parse_document` on
it. -/
def HwpReader.from_bytes (bytes : CfbReader) : Except HwpError HwpDocument :=
  HwpReader.parse_document bytes


/-! ## HwpWriter (spec §2, §4.5–§4.7, §6) -/

/-- Modelled from the spec: the HWP writer of the public API (§6; module
`writer`, not under src/).  It owns the paragraphs added so far, in
order. -/
structure HwpWriter where
  paragraphs : List (List Char)
deriving DecidableEq

/-- Modelled from the spec: `HwpWriter::new()`. -/
def HwpWriter.new : HwpWriter := ⟨[]⟩

/-- Modelled from the spec: `add_paragraph(text)` (§6) appends one
paragraph.  (In Rust it returns `Result<&mut Self>`; appending cannot
fail, and the tests unwrap it.) -/
def HwpWriter.add_paragraph (w : HwpWriter) (text : List Char) : HwpWriter :=
  ⟨w.paragraphs ++ [text]⟩

/-- The writer state after adding a list of paragraphs in order. -/
def writerOf (ps : List (List Char)) : HwpWriter :=
  ps.foldl HwpWriter.add_paragraph HwpWriter.new

/-- Modelled from the spec: the records the writer emits for one
paragraph (§4.7, encoder direction): paragraph-header at level 0 (payload
carrying the char count and placeholder ids), then paragraph-text with the
UTF-16LE code units, paragraph-char-shape with a single span, and
paragraph-line-segment with one placeholder segment, at level 1. -/
def paraRecords (text : List Char) : List HwpRecord :=
  [⟨hwptagParaHeader, 0, encodeLE4 (strUtf16 text).length ++
      List.replicate 18 0⟩,
   ⟨hwptagParaText, 1, utf16leBytes (strUtf16 text)⟩,
   ⟨hwptagParaCharShape, 1, encodeLE4 0 ++ encodeLE4 0⟩,
   ⟨hwptagParaLineSeg, 1, List.replicate 36 0⟩]

/-- Modelled from the spec: the writer's minimum-viable DocInfo record
stream (§4.6). -/
def writerDocInfoRecords : List HwpRecord := [⟨16, 0, encodeLE4 1⟩]

/-- Modelled from the spec: the 32 header bytes the writer emits (§4.5):
the signature, a zero-padded version quadruple, and the flag word with
*compressed* = true and every other flag false. -/
def writerFileHeader : List Nat :=
  hwpSignature ++ [0, 3, 0, 5] ++ encodeLE4 1 ++ List.replicate 7 0

/-- Modelled from the spec: `HwpWriter::to_bytes` (§2 write pipeline, §6):
a CFB container (embedded at the stream-map level, §4.1) holding the
plaintext FileHeader, the deflated DocInfo record stream, and the deflated
`BodyText/Section0` record stream carrying the added paragraphs. -/
def HwpWriter.to_bytes (w : HwpWriter) : CfbReader :=
  ⟨[("FileHeader", writerFileHeader),
    ("DocInfo", deflateChunks (emitRecords writerDocInfoRecords)),
    ("BodyText/Section0",
      deflateChunks (emitRecords (w.paragraphs.flatMap paraRecords)))]⟩

/-! ## HWPX and the file system (spec §4.8, §6) -/

/-- Modelled from the spec: an HWPX package (§4.8): a ZIP of XML parts
that decodes into the same logical document model.  The claims below
depend only on the outcome of that decode, so a package is embedded as
its outcome: the decoded document, or none when a part is malformed. -/
structure HwpxPackage where
  doc : Option HwpDocument
deriving DecidableEq

/-- Modelled from the spec: the XML/ZIP decode of HwpxReader (§4.8, §7):
the decoded document, or *invalid-format* on a malformed part. -/
def HwpxReader.parse_package (p : HwpxPackage) : Except HwpError HwpDocument :=
  match p.doc with
  | some d => .ok d
  | none => .error (.invalidFormat "XML parse failure")

/-- A file on disk as the two container layers see it: a legacy CFB
container, an HWPX package, or bytes in neither format. -/
inductive FileData where
  | hwp (c : CfbReader)
  | hwpx (p : HwpxPackage)
  | other
deriving DecidableEq

/-- Path lookup in the modelled file system. -/
def findFile : List (String × FileData) → String → Option FileData
  | [], _ => none
  | (k, v) :: rest, path => if path = k then some v else findFile rest path

/-- Modelled from the spec: `HwpReader::from_file` (src/lib.rs lines
30–33; the CFB open of a missing path or of bytes that are not a compound
file fails at the container layer, wrapped as *io-error* per §9). -/
def HwpReader.from_file (fs : List (String × FileData)) (path : String) :
    Except HwpError HwpDocument :=
  match findFile fs path with
  | some (.hwp c) => HwpReader.parse_document c
  | some _ => .error (.ioError "Not a CFB compound file")
  | none => .error (.ioError "No such file")

/-- Modelled from the spec: `HwpxReader::from_file` (§4.8). -/
def HwpxReader.from_file (fs : List (String × FileData)) (path : String) :
    Except HwpError HwpDocument :=
  match findFile fs path with
  | some (.hwpx p) => HwpxReader.parse_package p
  | some _ => .error (.ioError "Not a ZIP archive")
  | none => .error (.ioError "No such file")

/-! ## Retrieval entry point (src/rag.rs) -/

/-- The final component of a path: the part after the last '/'. -/
def fileNameOf (path : String) : List Char :=
  ((path.toList.splitOn '/').getLast?).getD []

/-- Modelled from Rust std `Path::extension` composed with
`OsStr::to_str`, for the well-formed paths the retrieval entry point
receives: the part of the final path component after its last '.', or
none when that component contains no '.' past its first character. -/
def extensionOf (path : String) : Option (List Char) :=
  let parts := (fileNameOf path).splitOn '.'
  if 2 ≤ parts.length ∧ ¬(parts.length = 2 ∧ parts.headI = []) then
    some (parts.getLast?.getD [])
  else none

/-- ASCII lowercasing of one character — the fragment of Rust
`str::to_lowercase` that the ("hwp" / "hwpx") extension comparison can
observe. -/
def asciiLowerChar (c : Char) : Char :=
  if 65 ≤ c.toNat ∧ c.toNat ≤ 90 then Char.ofNat (c.toNat + 32) else c

/-- ASCII lowercasing of a string. -/
def asciiLower (s : List Char) : List Char := s.map asciiLowerChar

/-- Rust `char::is_whitespace`: the Unicode White_Space property. -/
def isRustWhitespace (c : Char) : Bool :=
  [9, 10, 11, 12, 13, 32, 133, 160, 5760, 8192, 8193, 8194, 8195, 8196,
    8197, 8198, 8199, 8200, 8201, 8202, 8232, 8233, 8239, 8287,
    12288].contains c.toNat

/-- Rust `str::trim_start`. -/
def trimStart (s : List Char) : List Char := s.dropWhile isRustWhitespace

/-- Rust `str::trim_end`. -/
def trimEnd (s : List Char) : List Char :=
  (s.reverse.dropWhile isRustWhitespace).reverse

/-- Rust `str::trim`: whitespace removed from both ends. -/
def trim (s : List Char) : List Char := trimEnd (trimStart s)

/-- Split at every newline character; a terminator-free representation of
the pieces between the '\n' separators (the last piece is the tail after
the final '\n', empty when the input ends with '\n'). -/
def splitNl : List Char → List (List Char)
  | [] => [[]]
  | c :: rest =>
    if c = '\n' then [] :: splitNl rest
    else
      match splitNl rest with
      | [] => [[c]]
      | p :: ps => (c :: p) :: ps

/-- One trailing carriage return removed, as Rust `str::lines` does per
line. -/
def stripTrailingCr (l : List Char) : List Char :=
  if l.getLast? = some '\r' then l.dropLast else l

/-- Rust `str::lines`: split on '\n', drop the empty piece a terminating
newline would create, and strip one trailing '\r' from each line. -/
def rlines (s : List Char) : List (List Char) :=
  (if (splitNl s).getLast? = some [] then (splitNl s).dropLast
    else splitNl s).map stripTrailingCr

/-- src/rag.rs `normalize_text` (lines 42–50): trim each line, drop the
lines left empty, join with a newline, trim the joined result. -/
def normalize_text (text : List Char) : List Char :=
  let lines := ((rlines text).map trim).filter (fun l => !l.isEmpty)
  trim (joinNl lines)

/-- src/rag.rs `extract_text_for_rag` (lines 7–36): dispatch on the
lowercased file extension, extract, normalize, and reject a normalized
result shorter than 50 characters. -/
def extract_text_for_rag (fs : List (String × FileData)) (file_path : String) :
    Except HwpError (List Char) := do
  let extension ← match extensionOf file_path with
    | some e => pure e
    | none => Except.error (.invalidFormat "No file extension found")
  let doc ←
    if asciiLower extension = "hwp".toList then
      HwpReader.from_file fs file_path
    else if asciiLower extension = "hwpx".toList then
      HwpxReader.from_file fs file_path
    else
      Except.error (.invalidFormat
        ("Unsupported file extension: ." ++ String.mk extension))
  let text := doc.extract_text
  let normalized := normalize_text text
  if normalized.length < 50 then
    Except.error (.invalidFormat
      "Extracted text too short (less than 50 characters)")
  else
    pure normalized

/-! ## Ordered containment -/

/-- Sequential substring containment: each listed string occurs
contiguously in `s`, each occurrence starting at or after the end of the
previous occurrence. -/
def containsInOrderB : List (List Char) → List Char → Bool
  | [], _ => true
  | p :: ps, s =>
    (List.range (s.length + 1)).any
      (fun i => ((s.drop i).take p.length == p) &&
        containsInOrderB ps (s.drop (i + p.length)))

/-! ## Theorems -/

theorem leWord_encodeLE4 (w : Nat) (h : w < 4294967296) :
    leWord (encodeLE4 w) = w := by
  simp only [encodeLE4, leWord]
  omega

theorem length_encodeLE4 (w : Nat) : (encodeLE4 w).length = 4 := rfl

theorem emitRecord_length_ge (r : HwpRecord) : 4 ≤ (emitRecord r).length := by
  unfold emitRecord
  split <;> simp [encodeLE4]

/-- One step of the record round-trip: parsing the emission of a
well-formed record followed by arbitrary bytes consumes exactly that
emission. -/
theorem parseRecords_emit_cons (r : HwpRecord) (tail : List Nat) (fuel : Nat)
    (hwf : r.wf) :
    parseRecords (fuel + 1) (emitRecord r ++ tail) =
      match parseRecords fuel tail with
      | .ok rs => .ok (r :: rs)
      | .error e => .error e := by
  obtain ⟨ht, hl, hs, hne⟩ := hwf
  by_cases hbig : 4095 < r.payload.length
  · have hcons : emitRecord r ++ tail =
        ((r.tag + 1024 * r.level + 1048576 * 4095) % 256) ::
        ((r.tag + 1024 * r.level + 1048576 * 4095) / 256 % 256) ::
        ((r.tag + 1024 * r.level + 1048576 * 4095) / 65536 % 256) ::
        ((r.tag + 1024 * r.level + 1048576 * 4095) / 16777216 % 256) ::
        (encodeLE4 r.payload.length ++ (r.payload ++ tail)) := by
      simp [emitRecord, hbig, encodeLE4]
    rw [hcons]
    simp only [parseRecords]
    rw [show (r.tag + 1024 * r.level + 1048576 * 4095) % 256 +
        256 * ((r.tag + 1024 * r.level + 1048576 * 4095) / 256 % 256) +
        65536 * ((r.tag + 1024 * r.level + 1048576 * 4095) / 65536 % 256) +
        16777216 * ((r.tag + 1024 * r.level + 1048576 * 4095) / 16777216 % 256) =
        r.tag + 1024 * r.level + 1048576 * 4095 from by omega]
    rw [if_pos (show (r.tag + 1024 * r.level + 1048576 * 4095) / 1048576 =
      4095 from by omega)]
    rw [if_neg (show ¬((encodeLE4 r.payload.length ++
        (r.payload ++ tail)).length < 4) from by
      simp only [List.length_append, length_encodeLE4]; omega)]
    have htake := List.take_left (encodeLE4 r.payload.length) (r.payload ++ tail)
    have hdrop := List.drop_left (encodeLE4 r.payload.length) (r.payload ++ tail)
    rw [length_encodeLE4] at htake hdrop
    rw [htake, hdrop, leWord_encodeLE4 r.payload.length hs]
    rw [if_neg (show ¬((r.payload ++ tail).length < r.payload.length) from by
      simp only [List.length_append]; omega)]
    rw [List.take_left, List.drop_left]
    rw [show (r.tag + 1024 * r.level + 1048576 * 4095) % 1024 = r.tag from by
      omega]
    rw [show (r.tag + 1024 * r.level + 1048576 * 4095) / 1024 % 1024 = r.level
      from by omega]
  · have hcons : emitRecord r ++ tail =
        ((r.tag + 1024 * r.level + 1048576 * r.payload.length) % 256) ::
        ((r.tag + 1024 * r.level + 1048576 * r.payload.length) / 256 % 256) ::
        ((r.tag + 1024 * r.level + 1048576 * r.payload.length) / 65536 % 256) ::
        ((r.tag + 1024 * r.level + 1048576 * r.payload.length) / 16777216 % 256)
        :: (r.payload ++ tail) := by
      simp [emitRecord, hbig, encodeLE4]
    rw [hcons]
    simp only [parseRecords]
    rw [show (r.tag + 1024 * r.level + 1048576 * r.payload.length) % 256 +
        256 * ((r.tag + 1024 * r.level + 1048576 * r.payload.length) / 256 % 256)
        + 65536 *
          ((r.tag + 1024 * r.level + 1048576 * r.payload.length) / 65536 % 256)
        + 16777216 *
          ((r.tag + 1024 * r.level + 1048576 * r.payload.length) / 16777216 % 256)
        = r.tag + 1024 * r.level + 1048576 * r.payload.length from by omega]
    rw [if_neg (show ¬((r.tag + 1024 * r.level + 1048576 * r.payload.length) /
      1048576 = 4095) from by omega)]
    rw [show (r.tag + 1024 * r.level + 1048576 * r.payload.length) / 1048576 =
      r.payload.length from by omega]
    rw [if_neg (show ¬((r.payload ++ tail).length < r.payload.length) from by
      simp only [List.length_append]; omega)]
    rw [List.take_left, List.drop_left]
    rw [show (r.tag + 1024 * r.level + 1048576 * r.payload.length) % 1024 =
      r.tag from by omega]
    rw [show (r.tag + 1024 * r.level + 1048576 * r.payload.length) / 1024 % 1024
      = r.level from by omega]

/-- Record round-trip (spec §8.6): parsing the emission of a sequence of
well-formed records recovers exactly that sequence. -/
theorem parseRecords_emitRecords (rs : List HwpRecord) (fuel : Nat)
    (hfuel : rs.length ≤ fuel) (hwf : ∀ r ∈ rs, r.wf) :
    parseRecords fuel (emitRecords rs) = .ok rs := by
  induction rs generalizing fuel with
  | nil =>
    cases fuel <;> simp [emitRecords, parseRecords]
  | cons r rs ih =>
    cases fuel with
    | zero => simp at hfuel
    | succ f =>
      have hr : r.wf := hwf r (by simp)
      have hrest : ∀ x ∈ rs, x.wf := fun x hx => hwf x (by simp [hx])
      have : emitRecords (r :: rs) = emitRecord r ++ emitRecords rs := by
        simp [emitRecords]
      rw [this, parseRecords_emit_cons r (emitRecords rs) f hr,
        ih f (by simpa using hfuel) hrest]

theorem length_emitRecords_ge (rs : List HwpRecord) :
    rs.length ≤ (emitRecords rs).length := by
  induction rs with
  | nil => simp [emitRecords]
  | cons r rs ih =>
    have : emitRecords (r :: rs) = emitRecord r ++ emitRecords rs := by
      simp [emitRecords]
    rw [this]
    have := emitRecord_length_ge r
    simp only [List.length_append, List.length_cons]
    omega

theorem inflateLoop_deflateGo (fuel : Nat) :
    ∀ (f : Nat) (bs : List Nat),
      bs.length ≤ 65535 + 65535 * fuel → bs.length < 65535 * f →
      inflateLoop f (deflateGo fuel bs) = .ok bs := by
  induction fuel with
  | zero =>
    intro f bs hb hf
    cases f with
    | zero => omega
    | succ g =>
      rw [deflateGo]
      simp [inflateLoop, Nat.mod_add_div, List.drop_length, List.take_length]
  | succ fu ih =>
    intro f bs hb hf
    cases f with
    | zero => omega
    | succ g =>
      by_cases hsmall : bs.length ≤ 65535
      · rw [deflateGo, if_pos hsmall]
        simp [inflateLoop, Nat.mod_add_div, List.drop_length, List.take_length]
      · rw [deflateGo, if_neg hsmall]
        have hlen : (bs.take 65535).length = 65535 := by
          rw [List.length_take]; omega
        have htake : (bs.take 65535 ++ deflateGo fu (bs.drop 65535)).take 65535
            = bs.take 65535 := by
          have := List.take_left (bs.take 65535) (deflateGo fu (bs.drop 65535))
          rwa [hlen] at this
        have hdrop : (bs.take 65535 ++ deflateGo fu (bs.drop 65535)).drop 65535
            = deflateGo fu (bs.drop 65535) := by
          have := List.drop_left (bs.take 65535) (deflateGo fu (bs.drop 65535))
          rwa [hlen] at this
        have hrec := ih g (bs.drop 65535)
          (by simp only [List.length_drop]; omega)
          (by simp only [List.length_drop]; omega)
        have hlena : 65535 ≤
            (bs.take 65535 ++ deflateGo fu (bs.drop 65535)).length := by
          simp only [List.length_append, List.length_take]
          omega
        simp [inflateLoop, htake, hdrop, hrec, hlena, List.take_append_drop]
        omega

theorem length_deflateGo_ge (fuel : Nat) :
    ∀ bs : List Nat, bs.length ≤ (deflateGo fuel bs).length := by
  induction fuel with
  | zero =>
    intro bs
    rw [deflateGo]
    simp only [List.length_cons]
    omega
  | succ fu ih =>
    intro bs
    by_cases hsmall : bs.length ≤ 65535
    · rw [deflateGo, if_pos hsmall]
      simp only [List.length_cons]
      omega
    · rw [deflateGo, if_neg hsmall]
      have := ih (bs.drop 65535)
      simp only [List.length_cons, List.length_append, List.length_take,
        List.length_drop] at *
      omega

theorem decompress_deflateChunks (bs : List Nat) :
    decompress (deflateChunks bs) = .ok bs := by
  unfold decompress deflateChunks
  apply inflateLoop_deflateGo
  · omega
  · have := length_deflateGo_ge bs.length bs
    omega



theorem except_bind_ok {e a b : Type} (x : a) (f : a → Except e b) :
    (Except.ok x : Except e a) >>= f = f x := rfl

theorem except_bind_error {e a b : Type} (err : e) (f : a → Except e b) :
    (Except.error err : Except e a) >>= f = Except.error err := rfl

theorem except_map_error {e a b : Type} (g : a → b) (err : e) :
    Except.map g (Except.error err : Except e a) = .error err := rfl

/-- Every successful decode carries at least one section: the
`body_texts.is_empty()` check of src/lib.rs (lines 89–93) guards the only
`Ok` exit of `parse_document`. -/
theorem sections_nonempty_of_parse_ok (r : CfbReader) (doc : HwpDocument)
    (h : HwpReader.parse_document r = .ok doc) : doc.body_texts ≠ [] := by
  unfold HwpReader.parse_document at h
  simp only [bind, Except.bind, pure, Except.pure] at h
  repeat' split at h
  all_goals try simp_all [List.isEmpty_iff]
  all_goals (subst h; simp_all [List.isEmpty_iff])

/-- C10: when decoding a distribution document, a stream shorter than 260
bytes is returned from the decryption step unchanged — neither decrypted
nor rejected (src/lib.rs lines 150–153). -/
theorem c10_short_stream_unchanged (data : List Nat) (header : FileHeader)
    (dist_record : List Nat) (h : data.length < 260) :
    HwpReader.decrypt_stream data header (some dist_record) = .ok data := by
  simp [HwpReader.decrypt_stream, h]

theorem c10_short_stream_unchanged_witness :
    ([1, 2, 3] : List Nat).length < 260 ∧
      HwpReader.decrypt_stream [1, 2, 3] ⟨0, 4, []⟩
        (some (List.replicate 260 0)) = .ok [1, 2, 3] :=
  ⟨by decide, c10_short_stream_unchanged [1, 2, 3] ⟨0, 4, []⟩
    (List.replicate 260 0) (by decide)⟩

/-- C2: an input whose parsed file header has the password-encrypted flag
set is rejected with the unsupported-version error kind; a document is
never returned (src/lib.rs lines 45–49). -/
theorem c2_encrypted_rejected (reader : CfbReader) (hd : List Nat)
    (header : FileHeader)
    (hread : reader.read_stream "FileHeader" = .ok hd)
    (hparse : FileHeader.parse hd = .ok header)
    (henc : header.is_encrypted = true) :
    HwpReader.parse_document reader =
      .error (.unsupportedVersion
        "Password-encrypted documents are not supported") := by
  unfold HwpReader.parse_document
  rw [hread]
  simp only [bind, Except.bind]
  rw [hparse]
  simp [henc]

theorem c2_encrypted_rejected_witness :
    HwpReader.parse_document ⟨[("FileHeader",
        hwpSignature ++ [0, 0, 0, 0] ++ [2, 0, 0, 0] ++ List.replicate 7 0)]⟩ =
      .error (.unsupportedVersion
        "Password-encrypted documents are not supported") :=
  c2_encrypted_rejected _
    (hwpSignature ++ [0, 0, 0, 0] ++ [2, 0, 0, 0] ++ List.replicate 7 0)
    ⟨0, 2, hwpSignature ++ [0, 0, 0, 0] ++ [2, 0, 0, 0] ++ List.replicate 7 0⟩
    (by decide) (by decide) (by decide)

/-- C4: for distribution documents, decryption receives exactly the bytes
after the 260-byte prologue — the prologue is never passed to the cipher
(src/lib.rs lines 145–159) — and the 260-byte distribution record is
sliced from the DocInfo stream after decompression when the compressed
flag is set (src/lib.rs lines 124–143). -/
theorem c4_decrypt_after_prologue_record_after_inflate :
    (∀ (data : List Nat) (header : FileHeader) (rec : List Nat),
        260 ≤ data.length →
        HwpReader.decrypt_stream data header (some rec) =
          decrypt_distribution_stream (data.drop 260) rec) ∧
    (∀ (reader : CfbReader) (di d : List Nat),
        reader.read_stream "DocInfo" = .ok di →
        decompress di = .ok d → 260 ≤ d.length →
        HwpReader.read_distribution_record reader true = .ok (d.take 260)) := by
  constructor
  · intro data header rec h
    simp [HwpReader.decrypt_stream, Nat.not_lt.mpr h]
  · intro reader di d hread hdec hlen
    unfold HwpReader.read_distribution_record
    rw [hread]
    simp only [bind, Except.bind, if_true]
    rw [hdec]
    simp [Nat.not_lt.mpr hlen, pure, Except.pure]

set_option maxRecDepth 40000 in
theorem c4_decrypt_after_prologue_record_after_inflate_witness :
    HwpReader.decrypt_stream (List.replicate 260 7) ⟨0, 4, []⟩ (some [1]) =
      decrypt_distribution_stream ((List.replicate 260 7).drop 260) [1] ∧
    HwpReader.read_distribution_record
        ⟨[("DocInfo", deflateChunks (List.replicate 260 9))]⟩ true =
      .ok ((List.replicate 260 9).take 260) :=
  ⟨c4_decrypt_after_prologue_record_after_inflate.1 (List.replicate 260 7)
      ⟨0, 4, []⟩ [1] (by decide),
   c4_decrypt_after_prologue_record_after_inflate.2
      ⟨[("DocInfo", deflateChunks (List.replicate 260 9))]⟩
      (deflateChunks (List.replicate 260 9)) (List.replicate 260 9)
      (by decide) (by decide) (by decide)⟩

/-- C6: a distribution document whose DocInfo stream, after decompression
when the compressed flag is set, is shorter than 260 bytes fails with the
parse-error kind (src/lib.rs lines 124–143, reached from lines 51–58). -/
theorem c6_short_docinfo_parse_error (reader : CfbReader) (hd di d : List Nat)
    (header : FileHeader)
    (hread : reader.read_stream "FileHeader" = .ok hd)
    (hparse : FileHeader.parse hd = .ok header)
    (henc : header.is_encrypted = false)
    (hdistflag : header.is_distribute = true)
    (hdocread : reader.read_stream "DocInfo" = .ok di)
    (hdecomp : (if header.is_compressed then decompress di else pure di) =
      .ok d)
    (hshort : d.length < 260) :
    HwpReader.parse_document reader =
      .error (.parseError "DocInfo too short to contain distribution data") := by
  have hrdr : HwpReader.read_distribution_record reader header.is_compressed =
      .error (.parseError "DocInfo too short to contain distribution data") := by
    unfold HwpReader.read_distribution_record
    rw [hdocread, except_bind_ok]
    cases hc : header.is_compressed with
    | false =>
      rw [hc] at hdecomp
      simp only [Bool.false_eq_true, if_false] at hdecomp
      simp only [pure, Except.pure, Except.ok.injEq] at hdecomp
      subst hdecomp
      simp only [Bool.false_eq_true, if_false, pure, Except.pure,
        except_bind_ok]
      rw [if_pos hshort]
    | true =>
      rw [hc] at hdecomp
      simp only [if_true] at hdecomp
      simp only [if_true]
      rw [hdecomp, except_bind_ok, if_pos hshort]
  unfold HwpReader.parse_document
  rw [hread, except_bind_ok, hparse, except_bind_ok]
  rw [if_neg (by simp [henc] : ¬(header.is_encrypted = true))]
  rw [if_pos hdistflag, hrdr, except_map_error, except_bind_error]

set_option maxRecDepth 40000 in
theorem c6_short_docinfo_parse_error_witness :
    HwpReader.parse_document ⟨[("FileHeader",
        hwpSignature ++ [0, 0, 0, 0] ++ [5, 0, 0, 0] ++ List.replicate 7 0),
      ("DocInfo", deflateChunks [])]⟩ =
      .error (.parseError "DocInfo too short to contain distribution data") :=
  c6_short_docinfo_parse_error _
    (hwpSignature ++ [0, 0, 0, 0] ++ [5, 0, 0, 0] ++ List.replicate 7 0)
    (deflateChunks []) []
    ⟨0, 5, hwpSignature ++ [0, 0, 0, 0] ++ [5, 0, 0, 0] ++ List.replicate 7 0⟩
    (by decide) (by decide) (by decide) (by decide) (by decide) (by decide)
    (by decide)


/-- C3: a legacy input in which no section stream exists (index 0 of the
`BodyText/Section` family, or `ViewText/Section` for distribution
documents, is absent) fails with the invalid-format kind (src/lib.rs
lines 89–93), and a document with zero sections is never returned. -/
theorem c3_zero_sections_rejected (reader : CfbReader) (hd di dd : List Nat)
    (header : FileHeader) (dist : Option (List Nat)) (doc_info : DocInfo)
    (hread : reader.read_stream "FileHeader" = .ok hd)
    (hparse : FileHeader.parse hd = .ok header)
    (henc : header.is_encrypted = false)
    (hdist : (if header.is_distribute then
        Except.map some (HwpReader.read_distribution_record reader
          header.is_compressed)
      else pure none) = .ok dist)
    (hdocread : reader.read_stream "DocInfo" = .ok di)
    (hdec : HwpReader.decrypt_stream di header dist = .ok dd)
    (hdoci : DocInfoParser.parse dd header.is_compressed = .ok doc_info)
    (hmiss : reader.stream_exists
        ((if header.is_distribute then "ViewText/Section"
          else "BodyText/Section") ++ Nat.repr 0) = false) :
    HwpReader.parse_document reader =
        .error (.invalidFormat "No BodyText sections found") ∧
      ∀ (r : CfbReader) (doc : HwpDocument),
        HwpReader.parse_document r = .ok doc → doc.body_texts ≠ [] := by
  refine ⟨?_, sections_nonempty_of_parse_ok⟩
  unfold HwpReader.parse_document
  rw [hread, except_bind_ok, hparse, except_bind_ok]
  rw [if_neg (by simp [henc] : ¬(header.is_encrypted = true))]
  cases hdi : header.is_distribute with
  | false =>
    rw [hdi] at hdist hmiss
    simp only [Bool.false_eq_true, if_false] at hdist hmiss ⊢
    simp only [pure, Except.pure, Except.ok.injEq] at hdist
    subst hdist
    simp only [pure, Except.pure, except_bind_ok]
    rw [hdocread, except_bind_ok, hdec, except_bind_ok, hdoci, except_bind_ok]
    rw [HwpReader.collectSections]
    rw [if_neg (by simp [hmiss])]
    rw [show (pure [] : Except HwpError (List BodyText)) = .ok [] from rfl,
      except_bind_ok]
    rfl
  | true =>
    rw [hdi] at hdist hmiss
    simp only [if_true] at hdist hmiss ⊢
    rw [hdist, except_bind_ok]
    rw [hdocread, except_bind_ok, hdec, except_bind_ok, hdoci, except_bind_ok]
    rw [HwpReader.collectSections]
    rw [if_neg (by simp [hmiss])]
    rw [show (pure [] : Except HwpError (List BodyText)) = .ok [] from rfl,
      except_bind_ok]
    rfl

set_option maxRecDepth 40000 in
theorem c3_zero_sections_rejected_witness :
    HwpReader.parse_document ⟨[
        ("FileHeader", hwpSignature ++ List.replicate 15 0),
        ("DocInfo", emitRecords writerDocInfoRecords)]⟩ =
      .error (.invalidFormat "No BodyText sections found") :=
  (c3_zero_sections_rejected _
    (hwpSignature ++ List.replicate 15 0)
    (emitRecords writerDocInfoRecords)
    (emitRecords writerDocInfoRecords)
    ⟨0, 0, hwpSignature ++ List.replicate 15 0⟩
    none ⟨[⟨16, 0, [1, 0, 0, 0]⟩]⟩
    (by decide) (by decide) (by decide) (by decide) (by decide) (by decide)
    (by decide) (by decide)).1


/-- The section loop collects exactly the sections of the contiguous
index range below the first missing index, in numeric order. -/
theorem collectSections_spec (reader : CfbReader) (header : FileHeader)
    (dist : Option (List Nat)) (pre : String) (bts : Nat → BodyText) :
    ∀ (m fuel idx : Nat), m + 1 ≤ fuel →
      (∀ i, i < m → reader.stream_exists (pre ++ Nat.repr (idx + i)) = true) →
      reader.stream_exists (pre ++ Nat.repr (idx + m)) = false →
      (∀ i, i < m → (do
          let d ← reader.read_stream (pre ++ Nat.repr (idx + i))
          let dec ← HwpReader.decrypt_stream d header dist
          BodyTextParser.parse dec header.is_compressed) = .ok (bts (idx + i))) →
      HwpReader.collectSections reader header dist pre fuel idx =
        .ok ((List.range m).map (fun i => bts (idx + i))) := by
  intro m
  induction m with
  | zero =>
    intro fuel idx hfuel hex hmiss hsec
    cases fuel with
    | zero => omega
    | succ f =>
      rw [HwpReader.collectSections]
      rw [if_neg (by
        rw [Nat.add_zero] at hmiss
        simp [hmiss])]
      simp only [List.range_zero, List.map_nil]
      rfl
  | succ m ih =>
    intro fuel idx hfuel hex hmiss hsec
    cases fuel with
    | zero => omega
    | succ f =>
      have hex0 : reader.stream_exists (pre ++ Nat.repr idx) = true := by
        have := hex 0 (by omega)
        rwa [Nat.add_zero] at this
      have hsec0 := hsec 0 (by omega)
      rw [Nat.add_zero] at hsec0
      obtain ⟨d0, hr0, hrest0⟩ : ∃ d0,
          reader.read_stream (pre ++ Nat.repr idx) = .ok d0 ∧
          (do
            let dec ← HwpReader.decrypt_stream d0 header dist
            BodyTextParser.parse dec header.is_compressed) = .ok (bts idx) := by
        cases hr : reader.read_stream (pre ++ Nat.repr idx) with
        | ok v =>
          rw [hr, except_bind_ok] at hsec0
          exact ⟨v, rfl, hsec0⟩
        | error e =>
          rw [hr, except_bind_error] at hsec0
          cases hsec0
      obtain ⟨dec0, hc0, hp0⟩ : ∃ dec0,
          HwpReader.decrypt_stream d0 header dist = .ok dec0 ∧
          BodyTextParser.parse dec0 header.is_compressed = .ok (bts idx) := by
        cases hc : HwpReader.decrypt_stream d0 header dist with
        | ok v =>
          rw [hc, except_bind_ok] at hrest0
          exact ⟨v, rfl, hrest0⟩
        | error e =>
          rw [hc, except_bind_error] at hrest0
          cases hrest0
      have hrec := ih f (idx + 1) (by omega)
        (by
          intro i hi
          have := hex (i + 1) (by omega)
          rwa [show idx + (i + 1) = idx + 1 + i from by omega] at this)
        (by
          have := hmiss
          rwa [show idx + (m + 1) = idx + 1 + m from by omega] at this)
        (by
          intro i hi
          have := hsec (i + 1) (by omega)
          rwa [show idx + (i + 1) = idx + 1 + i from by omega] at this)
      rw [HwpReader.collectSections]
      rw [if_pos hex0]
      rw [hr0, except_bind_ok, hc0, except_bind_ok, hp0, except_bind_ok]
      rw [hrec, except_bind_ok]
      rw [show (List.range (m + 1)).map (fun i => bts (idx + i)) =
          bts idx :: (List.range m).map (fun i => bts (idx + 1 + i)) from by
        rw [List.range_succ_eq_map]
        simp only [List.map_cons, List.map_map, Nat.add_zero]
        refine congrArg _ ?_
        refine List.map_congr_left ?_
        intro i hi
        simp only [Function.comp_apply]
        refine congrArg bts (by omega)]
      rfl

/-- C5: the legacy reader reads `BodyText/Section<N>` streams for plain
documents and `ViewText/Section<N>` when the distribution flag is set,
with `N` starting at 0 and contiguous: the sections of the resulting
document are exactly those below the first missing index, in numeric
order (src/lib.rs lines 68–87). -/
theorem c5_contiguous_sections (reader : CfbReader) (hd di dd : List Nat)
    (header : FileHeader) (dist : Option (List Nat)) (doc_info : DocInfo)
    (pre : String) (bts : Nat → BodyText) (m : Nat)
    (hread : reader.read_stream "FileHeader" = .ok hd)
    (hparse : FileHeader.parse hd = .ok header)
    (henc : header.is_encrypted = false)
    (hdist : (if header.is_distribute then
        Except.map some (HwpReader.read_distribution_record reader
          header.is_compressed)
      else pure none) = .ok dist)
    (hdocread : reader.read_stream "DocInfo" = .ok di)
    (hdec : HwpReader.decrypt_stream di header dist = .ok dd)
    (hdoci : DocInfoParser.parse dd header.is_compressed = .ok doc_info)
    (hpre : pre = if header.is_distribute then "ViewText/Section"
      else "BodyText/Section")
    (hpos : 0 < m)
    (hbound : m ≤ reader.streams.length)
    (hex : ∀ i, i < m → reader.stream_exists (pre ++ Nat.repr i) = true)
    (hmiss : reader.stream_exists (pre ++ Nat.repr m) = false)
    (hsec : ∀ i, i < m → (do
        let d ← reader.read_stream (pre ++ Nat.repr i)
        let dec ← HwpReader.decrypt_stream d header dist
        BodyTextParser.parse dec header.is_compressed) = .ok (bts i)) :
    ∃ doc, HwpReader.parse_document reader = .ok doc ∧
      doc.body_texts = (List.range m).map bts := by
  have hcoll := collectSections_spec reader header dist pre bts m
    (reader.streams.length + 1) 0 (by omega)
    (by intro i hi; rw [Nat.zero_add]; exact hex i hi)
    (by rw [Nat.zero_add]; exact hmiss)
    (by intro i hi; rw [Nat.zero_add]; exact hsec i hi)
  have hmapeq : (List.range m).map (fun i => bts (0 + i)) =
      (List.range m).map bts := by
    refine List.map_congr_left ?_
    intro i hi
    rw [Nat.zero_add]
  rw [hmapeq] at hcoll
  refine ⟨⟨header, doc_info, (List.range m).map bts,
    (HwpReader.read_preview_text reader).toOption,
    (HwpReader.read_preview_image reader).toOption,
    (HwpReader.read_summary_info reader).toOption⟩, ?_, rfl⟩
  unfold HwpReader.parse_document
  rw [hread, except_bind_ok, hparse, except_bind_ok]
  rw [if_neg (by simp [henc] : ¬(header.is_encrypted = true))]
  have hne : ((List.range m).map bts).isEmpty = false := by
    cases hm : List.range m with
    | nil =>
      have := List.length_range m
      rw [hm] at this
      simp at this
      omega
    | cons a l => simp
  cases hdi : header.is_distribute with
  | false =>
    rw [hdi] at hdist
    rw [hdi] at hpre
    simp only [Bool.false_eq_true, if_false] at hdist hpre ⊢
    simp only [pure, Except.pure, Except.ok.injEq] at hdist
    subst hdist
    subst hpre
    simp only [pure, Except.pure, except_bind_ok]
    rw [hdocread, except_bind_ok, hdec, except_bind_ok, hdoci, except_bind_ok]
    rw [hcoll, except_bind_ok]
    rw [if_neg (by simp [hne])]
  | true =>
    rw [hdi] at hdist
    rw [hdi] at hpre
    simp only [if_true] at hdist hpre ⊢
    subst hpre
    rw [hdist, except_bind_ok]
    rw [hdocread, except_bind_ok, hdec, except_bind_ok, hdoci, except_bind_ok]
    rw [hcoll, except_bind_ok]
    rw [if_neg (by simp [hne])]

set_option maxRecDepth 40000 in
theorem c5_contiguous_sections_witness :
    ∃ doc, HwpReader.parse_document ⟨[
        ("FileHeader", hwpSignature ++ List.replicate 15 0),
        ("DocInfo", emitRecords writerDocInfoRecords),
        ("BodyText/Section0", []),
        ("BodyText/Section1", [])]⟩ = .ok doc ∧
      doc.body_texts = (List.range 2).map (fun _ => (⟨[]⟩ : BodyText)) :=
  c5_contiguous_sections _
    (hwpSignature ++ List.replicate 15 0)
    (emitRecords writerDocInfoRecords)
    (emitRecords writerDocInfoRecords)
    ⟨0, 0, hwpSignature ++ List.replicate 15 0⟩
    none ⟨[⟨16, 0, [1, 0, 0, 0]⟩]⟩
    "BodyText/Section" (fun _ => ⟨[]⟩) 2
    (by decide) (by decide) (by decide) (by decide) (by decide) (by decide)
    (by decide) (by decide) (by decide) (by decide) (by decide) (by decide)
    (by decide)


/-! ### Whitespace-trimming lemmas -/

theorem mem_of_getLast?_eq {α : Type} (l : List α) (a : α)
    (h : l.getLast? = some a) : a ∈ l := by
  rw [List.getLast?_eq_head?_reverse] at h
  rw [← List.mem_reverse]
  cases hr : l.reverse with
  | nil => rw [hr] at h; cases h
  | cons c cs =>
    rw [hr] at h
    simp only [List.head?_cons, Option.some.injEq] at h
    subst h
    exact List.mem_cons_self c cs

theorem dropWhile_head?_not (p : Char → Bool) :
    ∀ (l : List Char) (c : Char), (l.dropWhile p).head? = some c →
      p c = false := by
  intro l
  induction l with
  | nil => intro c h; cases h
  | cons a rest ih =>
    intro c h
    rw [List.dropWhile_cons] at h
    by_cases ha : p a = true
    · rw [if_pos ha] at h
      exact ih c h
    · rw [if_neg ha] at h
      cases h
      exact Bool.eq_false_iff.mpr ha

theorem dropWhile_eq_self_of_head? (p : Char → Bool) (l : List Char)
    (h : ∀ c, l.head? = some c → p c = false) : l.dropWhile p = l := by
  cases l with
  | nil => rfl
  | cons a rest =>
    rw [List.dropWhile_cons, if_neg (by simp [h a rfl])]

theorem trimStart_head?_not_ws (l : List Char) (c : Char)
    (h : (trimStart l).head? = some c) : isRustWhitespace c = false :=
  dropWhile_head?_not isRustWhitespace l c h

theorem trimStart_eq_self (l : List Char)
    (h : ∀ c, l.head? = some c → isRustWhitespace c = false) :
    trimStart l = l :=
  dropWhile_eq_self_of_head? isRustWhitespace l h

theorem trimEnd_getLast?_not_ws (l : List Char) (c : Char)
    (h : (trimEnd l).getLast? = some c) : isRustWhitespace c = false := by
  unfold trimEnd at h
  rw [List.getLast?_eq_head?_reverse, List.reverse_reverse] at h
  exact dropWhile_head?_not isRustWhitespace l.reverse c h

theorem trimEnd_eq_self (l : List Char)
    (h : ∀ c, l.getLast? = some c → isRustWhitespace c = false) :
    trimEnd l = l := by
  unfold trimEnd
  rw [dropWhile_eq_self_of_head? isRustWhitespace l.reverse
    (by
      intro c hc
      rw [← List.getLast?_eq_head?_reverse] at hc
      exact h c hc)]
  exact List.reverse_reverse l

theorem trimEnd_head? (l : List Char) (hne : trimEnd l ≠ []) :
    (trimEnd l).head? = l.head? := by
  obtain ⟨t, ht⟩ := List.dropWhile_suffix (l := l.reverse) isRustWhitespace
  have hl : l = trimEnd l ++ t.reverse := by
    have h2 := congrArg List.reverse ht
    rw [List.reverse_append, List.reverse_reverse] at h2
    exact h2.symm
  cases he : trimEnd l with
  | nil => exact absurd he hne
  | cons c cs =>
    rw [he] at hl
    rw [hl]
    rfl

theorem mem_of_mem_trimEnd (l : List Char) (c : Char) (h : c ∈ trimEnd l) :
    c ∈ l := by
  unfold trimEnd at h
  rw [List.mem_reverse] at h
  have := (List.dropWhile_sublist (l := l.reverse) isRustWhitespace).mem h
  rwa [List.mem_reverse] at this

theorem mem_of_mem_trim (l : List Char) (c : Char) (h : c ∈ trim l) :
    c ∈ l := by
  unfold trim at h
  have := mem_of_mem_trimEnd _ c h
  exact (List.dropWhile_sublist (l := l) isRustWhitespace).mem this

theorem trim_head?_not_ws (l : List Char) (c : Char)
    (h : (trim l).head? = some c) : isRustWhitespace c = false := by
  unfold trim at h
  have hne : trimEnd (trimStart l) ≠ [] := by
    intro hnil
    rw [hnil] at h
    cases h
  rw [trimEnd_head? _ hne] at h
  exact trimStart_head?_not_ws l c h

theorem trim_getLast?_not_ws (l : List Char) (c : Char)
    (h : (trim l).getLast? = some c) : isRustWhitespace c = false :=
  trimEnd_getLast?_not_ws _ c h

theorem trim_eq_self (l : List Char)
    (hh : ∀ c, l.head? = some c → isRustWhitespace c = false)
    (hl : ∀ c, l.getLast? = some c → isRustWhitespace c = false) :
    trim l = l := by
  unfold trim
  rw [trimStart_eq_self l hh, trimEnd_eq_self l hl]

theorem trim_trim (l : List Char) : trim (trim l) = trim l :=
  trim_eq_self (trim l) (trim_head?_not_ws l) (trim_getLast?_not_ws l)

/-! ### Line-splitting lemmas -/

theorem splitNl_ne_nil (s : List Char) : splitNl s ≠ [] := by
  induction s with
  | nil => simp [splitNl]
  | cons c rest ih =>
    rw [splitNl]
    by_cases hc : c = '\n'
    · simp [hc]
    · rw [if_neg hc]
      cases h : splitNl rest <;> simp

theorem not_newline_mem_splitNl (s : List Char) :
    ∀ p ∈ splitNl s, '\n' ∉ p := by
  induction s with
  | nil =>
    intro p hp
    rw [splitNl] at hp
    simp at hp
    simp [hp]
  | cons c rest ih =>
    intro p hp
    rw [splitNl] at hp
    by_cases hc : c = '\n'
    · rw [if_pos hc] at hp
      cases hp with
      | head => simp
      | tail _ hmem => exact ih p hmem
    · rw [if_neg hc] at hp
      cases hsp : splitNl rest with
      | nil => exact absurd hsp (splitNl_ne_nil rest)
      | cons p0 ps =>
        rw [hsp] at hp
        cases hp with
        | head =>
          intro hmem
          cases hmem with
          | head => exact hc rfl
          | tail _ hm =>
            exact ih p0 (by rw [hsp]; exact List.mem_cons_self p0 ps) hm
        | tail _ hmem =>
          exact ih p (by rw [hsp]; exact List.mem_cons_of_mem p0 hmem)

theorem splitNl_append_newline (l s : List Char) (h : '\n' ∉ l) :
    splitNl (l ++ '\n' :: s) = l :: splitNl s := by
  induction l with
  | nil =>
    rw [List.nil_append, splitNl, if_pos rfl]
  | cons c cs ih =>
    have hc : c ≠ '\n' := fun hc => h (by rw [hc]; exact List.mem_cons_self _ _)
    have hcs : '\n' ∉ cs := fun hm => h (List.mem_cons_of_mem c hm)
    rw [List.cons_append, splitNl, if_neg hc, ih hcs]

theorem splitNl_no_newline (l : List Char) (h : '\n' ∉ l) :
    splitNl l = [l] := by
  induction l with
  | nil => rfl
  | cons c cs ih =>
    have hc : c ≠ '\n' := fun hc => h (by rw [hc]; exact List.mem_cons_self _ _)
    have hcs : '\n' ∉ cs := fun hm => h (List.mem_cons_of_mem c hm)
    rw [splitNl, if_neg hc, ih hcs]

theorem splitNl_joinNl (ls : List (List Char)) (hne : ls ≠ [])
    (h : ∀ l ∈ ls, '\n' ∉ l) : splitNl (joinNl ls) = ls := by
  induction ls with
  | nil => exact absurd rfl hne
  | cons l ls ih =>
    cases ls with
    | nil =>
      rw [joinNl]
      exact splitNl_no_newline l (h l (List.mem_cons_self _ _))
    | cons l2 ls2 =>
      rw [joinNl]
      rw [splitNl_append_newline l _ (h l (List.mem_cons_self _ _))]
      rw [ih (by simp) (fun x hx => h x (List.mem_cons_of_mem l hx))]


/-! ### Lines of joined pieces -/

theorem not_newline_mem_rlines (t : List Char) :
    ∀ x ∈ rlines t, '\n' ∉ x := by
  intro x hx hmem
  unfold rlines at hx
  rw [List.mem_map] at hx
  obtain ⟨p, hp, hpx⟩ := hx
  have hpmem : p ∈ splitNl t := by
    by_cases hc : (splitNl t).getLast? = some ([] : List Char)
    · rw [if_pos hc] at hp
      exact (List.dropLast_sublist _).mem hp
    · rwa [if_neg hc] at hp
  apply not_newline_mem_splitNl t p hpmem
  subst hpx
  unfold stripTrailingCr at hmem
  by_cases hr : p.getLast? = some '\r'
  · rw [if_pos hr] at hmem
    exact (List.dropLast_sublist p).mem hmem
  · rwa [if_neg hr] at hmem

theorem rlines_joinNl (ls : List (List Char))
    (h : ∀ l ∈ ls, '\n' ∉ l ∧ l ≠ [] ∧
      (∀ c, l.getLast? = some c → isRustWhitespace c = false)) :
    rlines (joinNl ls) = ls := by
  cases ls with
  | nil => decide
  | cons l0 ls0 =>
    unfold rlines
    rw [splitNl_joinNl (l0 :: ls0) (by simp) (fun x hx => (h x hx).1)]
    have hlast : (l0 :: ls0).getLast? ≠ some ([] : List Char) := by
      intro hc
      have hm := mem_of_getLast?_eq (l0 :: ls0) [] hc
      exact (h [] hm).2.1 rfl
    rw [if_neg hlast]
    have hstrip : ∀ l ∈ l0 :: ls0, stripTrailingCr l = l := by
      intro l hl
      unfold stripTrailingCr
      rw [if_neg]
      intro hc
      have := (h l hl).2.2 '\r' hc
      exact absurd this (by decide)
    calc (l0 :: ls0).map stripTrailingCr = (l0 :: ls0).map id :=
        List.map_congr_left hstrip
      _ = l0 :: ls0 := List.map_id _

theorem joinNl_head?_eq (l0 : List Char) (ls : List (List Char))
    (hne : l0 ≠ []) : (joinNl (l0 :: ls)).head? = l0.head? := by
  cases ls with
  | nil => rw [joinNl]
  | cons l2 ls2 =>
    rw [joinNl]
    cases l0 with
    | nil => exact absurd rfl hne
    | cons c cs => rfl

theorem joinNl_getLast?_eq :
    ∀ (ls : List (List Char)) (ll : List Char), ll ≠ [] →
      ls.getLast? = some ll → (joinNl ls).getLast? = ll.getLast? := by
  intro ls
  induction ls with
  | nil => intro ll _ hc; cases hc
  | cons l0 ls0 ih =>
    intro ll hne hlast
    cases ls0 with
    | nil =>
      rw [List.getLast?_singleton] at hlast
      cases hlast
      rw [joinNl]
    | cons l2 ls2 =>
      rw [List.getLast?_cons_cons] at hlast
      have hrec := ih ll hne hlast
      obtain ⟨d, hd⟩ : ∃ d, ll.getLast? = some d := by
        cases hll : ll.getLast? with
        | none => exact absurd (List.getLast?_eq_none_iff.mp hll) hne
        | some d => exact ⟨d, rfl⟩
      rw [joinNl]
      rw [show l0 ++ '\n' :: joinNl (l2 :: ls2) =
        l0 ++ (['\n'] ++ joinNl (l2 :: ls2)) from rfl]
      rw [List.getLast?_append, List.getLast?_append]
      rw [hrec, hd]
      rfl

theorem trim_joinNl (ls : List (List Char))
    (h : ∀ l ∈ ls, l ≠ [] ∧
      (∀ c, l.head? = some c → isRustWhitespace c = false) ∧
      (∀ c, l.getLast? = some c → isRustWhitespace c = false)) :
    trim (joinNl ls) = joinNl ls := by
  cases ls with
  | nil => rfl
  | cons l0 ls0 =>
    apply trim_eq_self
    · intro c hc
      rw [joinNl_head?_eq l0 ls0 (h l0 (List.mem_cons_self _ _)).1] at hc
      exact (h l0 (List.mem_cons_self _ _)).2.1 c hc
    · intro c hc
      obtain ⟨ll, hll⟩ : ∃ ll, (l0 :: ls0).getLast? = some ll := by
        cases hg : (l0 :: ls0).getLast? with
        | none => exact absurd (List.getLast?_eq_none_iff.mp hg) (by simp)
        | some ll => exact ⟨ll, rfl⟩
      have hllmem := mem_of_getLast?_eq _ _ hll
      rw [joinNl_getLast?_eq (l0 :: ls0) ll (h ll hllmem).1 hll] at hc
      exact (h ll hllmem).2.2 c hc

/-! ### The normalized shape of retrieval text -/

theorem normalized_pieces_props (t : List Char) :
    ∀ l ∈ ((rlines t).map trim).filter (fun l => !l.isEmpty),
      l ≠ [] ∧ (∀ c, l.head? = some c → isRustWhitespace c = false) ∧
      (∀ c, l.getLast? = some c → isRustWhitespace c = false) ∧ '\n' ∉ l := by
  intro l hl
  rw [List.mem_filter] at hl
  obtain ⟨hmem, hne⟩ := hl
  rw [List.mem_map] at hmem
  obtain ⟨x, hx, hxl⟩ := hmem
  subst hxl
  refine ⟨?_, trim_head?_not_ws x, trim_getLast?_not_ws x, ?_⟩
  · intro hnil
    rw [hnil] at hne
    cases hne
  · intro hmem2
    exact not_newline_mem_rlines t x hx (mem_of_mem_trim x '\n' hmem2)

theorem normalize_text_eq_joinNl (t : List Char) :
    normalize_text t =
      joinNl (((rlines t).map trim).filter (fun l => !l.isEmpty)) := by
  show trim (joinNl (((rlines t).map trim).filter (fun l => !l.isEmpty))) = _
  exact trim_joinNl _ (fun l hl =>
    ⟨(normalized_pieces_props t l hl).1,
     (normalized_pieces_props t l hl).2.1,
     (normalized_pieces_props t l hl).2.2.1⟩)

theorem rlines_normalize_text (t : List Char) :
    rlines (normalize_text t) =
      ((rlines t).map trim).filter (fun l => !l.isEmpty) := by
  rw [normalize_text_eq_joinNl t]
  exact rlines_joinNl _ (fun l hl =>
    ⟨(normalized_pieces_props t l hl).2.2.2,
     (normalized_pieces_props t l hl).1,
     (normalized_pieces_props t l hl).2.2.1⟩)

/-- C9: `normalize_text` is idempotent (src/rag.rs lines 42–50). -/
theorem c9_normalize_text_idempotent (t : List Char) :
    normalize_text (normalize_text t) = normalize_text t := by
  have hL := normalized_pieces_props t
  have h3 : (((rlines t).map trim).filter (fun l => !l.isEmpty)).map trim =
      ((rlines t).map trim).filter (fun l => !l.isEmpty) := by
    calc (((rlines t).map trim).filter (fun l => !l.isEmpty)).map trim
        = (((rlines t).map trim).filter (fun l => !l.isEmpty)).map id :=
          List.map_congr_left (fun l hl =>
            trim_eq_self l (hL l hl).2.1 (hL l hl).2.2.1)
      _ = _ := List.map_id _
  have h4 : (((rlines t).map trim).filter (fun l => !l.isEmpty)).filter
      (fun l => !l.isEmpty) =
      ((rlines t).map trim).filter (fun l => !l.isEmpty) :=
    List.filter_eq_self.mpr (fun l hl => by
      have := (hL l hl).1
      simp [List.isEmpty_iff, this])
  rw [normalize_text_eq_joinNl (normalize_text t), rlines_normalize_text t,
    h3, h4, ← normalize_text_eq_joinNl t]


/-- Every successful result of the retrieval entry point is the
normalization of some extracted text (src/rag.rs lines 26–35). -/
theorem rag_ok_normalized (fs : List (String × FileData)) (p : String)
    (n : List Char) (h : extract_text_for_rag fs p = .ok n) :
    ∃ t, n = normalize_text t := by
  unfold extract_text_for_rag at h
  simp only [bind, Except.bind, pure, Except.pure] at h
  repeat' split at h
  all_goals first
    | (cases h; exact ⟨_, rfl⟩)
    | cases h

/-- C8: no line of a normalized text — hence of any successful
`extract_text_for_rag` result — is empty or consists solely of
whitespace (src/rag.rs lines 42–50). -/
theorem c8_no_blank_lines :
    (∀ (t l : List Char), l ∈ rlines (normalize_text t) →
      l ≠ [] ∧ ¬(∀ c ∈ l, isRustWhitespace c = true)) ∧
    (∀ (fs : List (String × FileData)) (p : String) (n l : List Char),
      extract_text_for_rag fs p = .ok n → l ∈ rlines n →
      l ≠ [] ∧ ¬(∀ c ∈ l, isRustWhitespace c = true)) := by
  have core : ∀ (t l : List Char), l ∈ rlines (normalize_text t) →
      l ≠ [] ∧ ¬(∀ c ∈ l, isRustWhitespace c = true) := by
    intro t l hl
    rw [rlines_normalize_text t] at hl
    have hp := normalized_pieces_props t l hl
    refine ⟨hp.1, ?_⟩
    intro hall
    cases hlc : l with
    | nil => exact hp.1 hlc
    | cons a rest =>
      have hf : isRustWhitespace a = false := by
        apply hp.2.1
        rw [hlc]
        rfl
      have ht : isRustWhitespace a = true := by
        apply hall
        rw [hlc]
        exact List.mem_cons_self a rest
      rw [hf] at ht
      cases ht
  exact ⟨core, fun fs p n l hok hl => by
    obtain ⟨t, ht⟩ := rag_ok_normalized fs p n hok
    subst ht
    exact core t l hl⟩

theorem c8_no_blank_lines_witness :
    (['h', 'i'] ∈ rlines (normalize_text ['h', 'i'])) ∧
      (['h', 'i'] ≠ [] ∧
        ¬(∀ c ∈ (['h', 'i'] : List Char), isRustWhitespace c = true)) :=
  ⟨by decide, c8_no_blank_lines.1 ['h', 'i'] ['h', 'i'] (by decide)⟩


/-- C7: `extract_text_for_rag` dispatches on the file extension
(`.hwp` / `.hwpx`, ASCII case-insensitive), rejects a missing or unknown
extension with the invalid-format kind, and on a successful extraction
fails with the invalid-format kind when the normalized text is shorter
than 50 characters and otherwise returns exactly the normalized text
(src/rag.rs lines 7–36). -/
theorem c7_rag_dispatch_normalize_threshold
    (fs : List (String × FileData)) (path : String) :
    (extensionOf path = none →
      extract_text_for_rag fs path =
        .error (.invalidFormat "No file extension found")) ∧
    (∀ e, extensionOf path = some e →
      asciiLower e ≠ "hwp".toList → asciiLower e ≠ "hwpx".toList →
      extract_text_for_rag fs path =
        .error (.invalidFormat
          ("Unsupported file extension: ." ++ String.mk e))) ∧
    (∀ e doc, extensionOf path = some e → asciiLower e = "hwp".toList →
      HwpReader.from_file fs path = .ok doc →
      extract_text_for_rag fs path =
        (if (normalize_text doc.extract_text).length < 50 then
          .error (.invalidFormat
            "Extracted text too short (less than 50 characters)")
        else .ok (normalize_text doc.extract_text))) ∧
    (∀ e doc, extensionOf path = some e → asciiLower e = "hwpx".toList →
      HwpxReader.from_file fs path = .ok doc →
      extract_text_for_rag fs path =
        (if (normalize_text doc.extract_text).length < 50 then
          .error (.invalidFormat
            "Extracted text too short (less than 50 characters)")
        else .ok (normalize_text doc.extract_text))) := by
  refine ⟨?_, ?_, ?_, ?_⟩
  · intro hext
    simp only [extract_text_for_rag, hext, bind, Except.bind]
  · intro e hext h1 h2
    simp only [extract_text_for_rag, hext, bind, Except.bind, pure,
      Except.pure]
    rw [if_neg h1, if_neg h2]
  · intro e doc hext hlow hdoc
    simp only [extract_text_for_rag, hext, bind, Except.bind, pure,
      Except.pure]
    rw [if_pos hlow, hdoc]
  · intro e doc hext hlow hdoc
    simp only [extract_text_for_rag, hext, bind, Except.bind, pure,
      Except.pure]
    rw [if_neg (by rw [hlow]; decide), if_pos hlow, hdoc]

set_option maxRecDepth 40000 in
theorem c7_rag_dispatch_normalize_threshold_witness :
    extract_text_for_rag
        [("doc.hwp", FileData.hwp ⟨[
          ("FileHeader", hwpSignature ++ List.replicate 15 0),
          ("DocInfo", emitRecords writerDocInfoRecords),
          ("BodyText/Section0", []),
          ("BodyText/Section1", [])]⟩)] "doc.txt" =
      .error (.invalidFormat
        ("Unsupported file extension: ." ++ String.mk ['t', 'x', 't'])) ∧
    extract_text_for_rag
        [("doc.hwp", FileData.hwp ⟨[
          ("FileHeader", hwpSignature ++ List.replicate 15 0),
          ("DocInfo", emitRecords writerDocInfoRecords),
          ("BodyText/Section0", []),
          ("BodyText/Section1", [])]⟩)] "doc.hwp" =
      .error (.invalidFormat
        "Extracted text too short (less than 50 characters)") := by
  constructor
  · exact (c7_rag_dispatch_normalize_threshold _ "doc.txt").2.1
      ['t', 'x', 't'] (by decide) (by decide) (by decide)
  · have := (c7_rag_dispatch_normalize_threshold
        [("doc.hwp", FileData.hwp ⟨[
          ("FileHeader", hwpSignature ++ List.replicate 15 0),
          ("DocInfo", emitRecords writerDocInfoRecords),
          ("BodyText/Section0", []),
          ("BodyText/Section1", [])]⟩)] "doc.hwp").2.2.1
      ['h', 'w', 'p']
      ⟨⟨0, 0, hwpSignature ++ List.replicate 15 0⟩, ⟨[⟨16, 0, [1, 0, 0, 0]⟩]⟩,
        [⟨[]⟩, ⟨[]⟩], none, none, none⟩
      (by decide) (by decide) (by decide)
    rw [this]
    decide


/-! ### UTF-16 and control-walk round-trips -/

theorem decodeUtf16leBytes_utf16leBytes (units : List Nat)
    (h : ∀ u ∈ units, u < 65536) :
    decodeUtf16leBytes (utf16leBytes units) = units := by
  induction units with
  | nil => rfl
  | cons u rest ih =>
    have hu : u < 65536 := h u (List.mem_cons_self _ _)
    have hr : ∀ x ∈ rest, x < 65536 := fun x hx =>
      h x (List.mem_cons_of_mem u hx)
    have hcons : utf16leBytes (u :: rest) =
        u % 256 :: u / 256 % 256 :: utf16leBytes rest := by
      unfold utf16leBytes
      rw [List.flatMap_cons]
      rfl
    rw [hcons, decodeUtf16leBytes, ih hr]
    congr 1
    omega

theorem walkCtrlGo_clean (fuel : Nat) :
    ∀ units : List Nat, units.length ≤ fuel →
      (∀ u ∈ units, ¬(u < 32 ∧ u ≠ 10 ∧ u ≠ 13)) →
      walkCtrlGo fuel units = units := by
  induction fuel with
  | zero =>
    intro units hlen _
    cases units with
    | nil => rfl
    | cons u rest => simp at hlen
  | succ f ih =>
    intro units hlen h
    cases units with
    | nil => rfl
    | cons u rest =>
      rw [walkCtrlGo, if_neg (h u (List.mem_cons_self _ _))]
      rw [ih rest (by simp at hlen; omega)
        (fun x hx => h x (List.mem_cons_of_mem u hx))]

theorem walkCtrl_clean (units : List Nat)
    (h : ∀ u ∈ units, ¬(u < 32 ∧ u ≠ 10 ∧ u ≠ 13)) :
    walkCtrl units = units :=
  walkCtrlGo_clean units.length units (Nat.le_refl _) h

theorem char_toNat_valid (c : Char) :
    c.toNat < 55296 ∨ (57344 ≤ c.toNat ∧ c.toNat < 1114112) := by
  have hv := c.valid
  cases hv with
  | inl h =>
    left
    exact h
  | inr h =>
    right
    exact h

theorem encodeUtf16_mem_lt (c : Char) : ∀ u ∈ encodeUtf16 c, u < 65536 := by
  intro u hu
  have hb := char_toNat_valid c
  unfold encodeUtf16 at hu
  by_cases hc : c.toNat < 65536
  · rw [if_pos hc] at hu
    simp at hu
    omega
  · rw [if_neg hc] at hu
    simp at hu
    cases hu with
    | inl h => omega
    | inr h => omega

theorem strUtf16_mem_lt (s : List Char) : ∀ u ∈ strUtf16 s, u < 65536 := by
  intro u hu
  unfold strUtf16 at hu
  rw [List.mem_flatMap] at hu
  obtain ⟨c, _, hc⟩ := hu
  exact encodeUtf16_mem_lt c u hc

theorem strUtf16_clean (s : List Char)
    (h : ∀ c ∈ s, 32 ≤ c.toNat ∨ c.toNat = 10 ∨ c.toNat = 13) :
    ∀ u ∈ strUtf16 s, ¬(u < 32 ∧ u ≠ 10 ∧ u ≠ 13) := by
  intro u hu
  unfold strUtf16 at hu
  rw [List.mem_flatMap] at hu
  obtain ⟨c, hcs, hc⟩ := hu
  have hcl := h c hcs
  unfold encodeUtf16 at hc
  by_cases hlt : c.toNat < 65536
  · rw [if_pos hlt] at hc
    simp at hc
    omega
  · rw [if_neg hlt] at hc
    simp at hc
    cases hc with
    | inl hh => omega
    | inr hh => omega

theorem decodeUtf16_cons_valid (u : Nat) (rest : List Nat)
    (h : u < 55296 ∨ (57344 ≤ u ∧ u < 65536)) :
    decodeUtf16 (u :: rest) = Char.ofNat u :: decodeUtf16 rest := by
  cases rest with
  | nil =>
    have h1 : decodeUtf16 [u] = [decodeOneUnit u] := rfl
    rw [h1]
    unfold decodeOneUnit
    rw [if_pos h]
    rfl
  | cons v rest2 =>
    rw [decodeUtf16, if_pos h]

theorem decodeUtf16_pair_valid (u v : Nat) (rest : List Nat)
    (hu1 : 55296 ≤ u) (hu2 : u < 56320) (hv1 : 56320 ≤ v) (hv2 : v < 57344) :
    decodeUtf16 (u :: v :: rest) =
      Char.ofNat (65536 + (u - 55296) * 1024 + (v - 56320)) ::
        decodeUtf16 rest := by
  rw [decodeUtf16]
  rw [if_neg (by omega)]
  rw [if_pos (by omega)]
  rw [if_pos ⟨hv1, hv2⟩]

set_option maxRecDepth 4000 in
theorem decodeUtf16_strUtf16 (s : List Char) :
    decodeUtf16 (strUtf16 s) = s := by
  induction s with
  | nil => rfl
  | cons c rest ih =>
    have hval := char_toNat_valid c
    have hs : strUtf16 (c :: rest) = encodeUtf16 c ++ strUtf16 rest := by
      unfold strUtf16
      rw [List.flatMap_cons]
    rw [hs]
    by_cases hc : c.toNat < 65536
    · have henc : encodeUtf16 c = [c.toNat] := by
        unfold encodeUtf16
        rw [if_pos hc]
      rw [henc, List.cons_append, List.nil_append]
      rw [decodeUtf16_cons_valid c.toNat (strUtf16 rest) (by omega)]
      rw [Char.ofNat_toNat, ih]
    · have henc : encodeUtf16 c = [55296 + (c.toNat - 65536) / 1024,
          56320 + (c.toNat - 65536) % 1024] := by
        unfold encodeUtf16
        rw [if_neg hc]
      rw [henc, List.cons_append, List.cons_append, List.nil_append]
      have hdivlt : (c.toNat - 65536) / 1024 < 1024 := by
        have hlt : c.toNat < 1114112 := by omega
        omega
      have hmodlt : (c.toNat - 65536) % 1024 < 1024 :=
        Nat.mod_lt _ (by omega)
      have hpair := decodeUtf16_pair_valid (55296 + (c.toNat - 65536) / 1024)
        (56320 + (c.toNat - 65536) % 1024) (strUtf16 rest) (by omega)
        (by omega) (by omega) (by omega)
      have harith : 65536 + (55296 + (c.toNat - 65536) / 1024 - 55296) * 1024 +
          (56320 + (c.toNat - 65536) % 1024 - 56320) = c.toNat := by
        have hdm := Nat.div_add_mod (c.toNat - 65536) 1024
        omega
      rw [harith, Char.ofNat_toNat, ih] at hpair
      exact hpair

theorem decodeParaText_roundtrip (p : List Char)
    (h : ∀ c ∈ p, 32 ≤ c.toNat ∨ c.toNat = 10 ∨ c.toNat = 13) :
    decodeParaText (utf16leBytes (strUtf16 p)) = p := by
  unfold decodeParaText
  rw [decodeUtf16leBytes_utf16leBytes (strUtf16 p) (strUtf16_mem_lt p)]
  rw [walkCtrl_clean (strUtf16 p) (strUtf16_clean p h)]
  exact decodeUtf16_strUtf16 p


/-! ### The writer's record stream, decoded -/

theorem buildParas_some_flatMap (ps : List (List Char)) :
    ∀ t, buildParas (some t) (ps.flatMap paraRecords) =
      t :: ps.map (fun p => decodeParaText (utf16leBytes (strUtf16 p))) := by
  induction ps with
  | nil => intro t; rfl
  | cons p ps ih =>
    intro t
    have hstep : buildParas (some t) ((p :: ps).flatMap paraRecords) =
        t :: buildParas (some (decodeParaText (utf16leBytes (strUtf16 p))))
          (ps.flatMap paraRecords) := rfl
    rw [hstep, ih]
    rfl

theorem buildParas_none_flatMap (ps : List (List Char)) :
    buildParas none (ps.flatMap paraRecords) =
      ps.map (fun p => decodeParaText (utf16leBytes (strUtf16 p))) := by
  cases ps with
  | nil => rfl
  | cons p ps =>
    have hstep : buildParas none ((p :: ps).flatMap paraRecords) =
        buildParas (some (decodeParaText (utf16leBytes (strUtf16 p))))
          (ps.flatMap paraRecords) := rfl
    rw [hstep, buildParas_some_flatMap]
    rfl

theorem length_utf16leBytes (units : List Nat) :
    (utf16leBytes units).length = 2 * units.length := by
  induction units with
  | nil => rfl
  | cons u rest ih =>
    have h : utf16leBytes (u :: rest) =
        u % 256 :: u / 256 % 256 :: utf16leBytes rest := rfl
    rw [h]
    simp only [List.length_cons, ih]
    omega

theorem length_strUtf16_le (s : List Char) :
    (strUtf16 s).length ≤ 2 * s.length := by
  induction s with
  | nil => simp [strUtf16]
  | cons c rest ih =>
    have h : strUtf16 (c :: rest) = encodeUtf16 c ++ strUtf16 rest := rfl
    have henc : (encodeUtf16 c).length ≤ 2 := by
      unfold encodeUtf16
      by_cases hc : c.toNat < 65536
      · rw [if_pos hc]
        simp
      · rw [if_neg hc]
        simp
    rw [h, List.length_append]
    simp only [List.length_cons]
    omega

theorem paraRecords_wf (p : List Char) (hsize : p.length < 1073741824) :
    ∀ r ∈ paraRecords p, r.wf := by
  intro r hr
  have h2 := length_utf16leBytes (strUtf16 p)
  have h3 := length_strUtf16_le p
  unfold paraRecords at hr
  simp only [List.mem_cons, List.not_mem_nil, or_false] at hr
  rcases hr with rfl | rfl | rfl | rfl
  · refine ⟨?_, ?_, ?_, ?_⟩
    · show hwptagParaHeader < 1024
      decide
    · show (0 : Nat) < 1024
      decide
    · show (encodeLE4 (strUtf16 p).length ++ List.replicate 18 0).length <
        4294967296
      rw [List.length_append, length_encodeLE4, List.length_replicate]
      omega
    · show (encodeLE4 (strUtf16 p).length ++ List.replicate 18 0).length ≠ 4095
      rw [List.length_append, length_encodeLE4, List.length_replicate]
      omega
  · refine ⟨?_, ?_, ?_, ?_⟩
    · show hwptagParaText < 1024
      decide
    · show (1 : Nat) < 1024
      decide
    · show (utf16leBytes (strUtf16 p)).length < 4294967296
      omega
    · show (utf16leBytes (strUtf16 p)).length ≠ 4095
      omega
  · exact ⟨by decide, by decide, by decide, by decide⟩
  · refine ⟨?_, ?_, ?_, ?_⟩
    · show hwptagParaLineSeg < 1024
      decide
    · show (1 : Nat) < 1024
      decide
    · show (List.replicate 36 0).length < 4294967296
      rw [List.length_replicate]
      omega
    · show (List.replicate 36 0).length ≠ 4095
      rw [List.length_replicate]
      omega

theorem writerOf_paragraphs (ps : List (List Char)) :
    (writerOf ps).paragraphs = ps := by
  have haux : ∀ (qs : List (List Char)) (acc : List (List Char)),
      (qs.foldl HwpWriter.add_paragraph ⟨acc⟩).paragraphs = acc ++ qs := by
    intro qs
    induction qs with
    | nil => intro acc; simp
    | cons q qs ih =>
      intro acc
      rw [List.foldl_cons]
      rw [show HwpWriter.add_paragraph ⟨acc⟩ q = ⟨acc ++ [q]⟩ from rfl]
      rw [ih (acc ++ [q])]
      simp
  have h0 : writerOf ps = ps.foldl HwpWriter.add_paragraph ⟨[]⟩ := rfl
  rw [h0, haux ps []]
  simp


set_option maxRecDepth 40000 in
theorem parse_writer_container (rs : List HwpRecord) (hwf : ∀ r ∈ rs, r.wf) :
    HwpReader.parse_document ⟨[
      ("FileHeader", writerFileHeader),
      ("DocInfo", deflateChunks (emitRecords writerDocInfoRecords)),
      ("BodyText/Section0", deflateChunks (emitRecords rs))]⟩ =
      .ok ⟨⟨83886848, 1, writerFileHeader⟩, ⟨writerDocInfoRecords⟩,
        [⟨buildParas none rs⟩], none, none, none⟩ := by
  have hbt : BodyTextParser.parse (deflateChunks (emitRecords rs))
      (⟨83886848, 1, writerFileHeader⟩ : FileHeader).is_compressed = .ok ⟨buildParas none rs⟩ := by
    unfold BodyTextParser.parse
    rw [if_pos (by decide :
      (⟨83886848, 1, writerFileHeader⟩ : FileHeader).is_compressed = true)]
    rw [decompress_deflateChunks, except_bind_ok]
    simp only []
    rw [parseRecords_emitRecords rs (emitRecords rs).length
      (length_emitRecords_ge rs) hwf, except_bind_ok]
    rfl
  have hlen3 : (⟨[
      ("FileHeader", writerFileHeader),
      ("DocInfo", deflateChunks (emitRecords writerDocInfoRecords)),
      ("BodyText/Section0", deflateChunks (emitRecords rs))]⟩ : CfbReader).streams.length = 2 + 1 := rfl
  have hcoll : HwpReader.collectSections ⟨[
      ("FileHeader", writerFileHeader),
      ("DocInfo", deflateChunks (emitRecords writerDocInfoRecords)),
      ("BodyText/Section0", deflateChunks (emitRecords rs))]⟩
      ⟨83886848, 1, writerFileHeader⟩ none "BodyText/Section"
      ((⟨[
      ("FileHeader", writerFileHeader),
      ("DocInfo", deflateChunks (emitRecords writerDocInfoRecords)),
      ("BodyText/Section0", deflateChunks (emitRecords rs))]⟩ : CfbReader).streams.length + 1) 0 =
      .ok [⟨buildParas none rs⟩] := by
    rw [hlen3]
    rw [HwpReader.collectSections]
    rw [if_pos (show CfbReader.stream_exists ⟨[
      ("FileHeader", writerFileHeader),
      ("DocInfo", deflateChunks (emitRecords writerDocInfoRecords)),
      ("BodyText/Section0", deflateChunks (emitRecords rs))]⟩
      ("BodyText/Section" ++ Nat.repr 0) = true from rfl)]
    rw [show CfbReader.read_stream ⟨[
      ("FileHeader", writerFileHeader),
      ("DocInfo", deflateChunks (emitRecords writerDocInfoRecords)),
      ("BodyText/Section0", deflateChunks (emitRecords rs))]⟩
      ("BodyText/Section" ++ Nat.repr 0) =
      .ok (deflateChunks (emitRecords rs)) from rfl]
    rw [except_bind_ok]
    rw [show HwpReader.decrypt_stream (deflateChunks (emitRecords rs))
      ⟨83886848, 1, writerFileHeader⟩ none = .ok (deflateChunks (emitRecords rs)) from rfl]
    rw [except_bind_ok]
    rw [hbt, except_bind_ok]
    rw [HwpReader.collectSections]
    rw [if_neg (show ¬(CfbReader.stream_exists ⟨[
      ("FileHeader", writerFileHeader),
      ("DocInfo", deflateChunks (emitRecords writerDocInfoRecords)),
      ("BodyText/Section0", deflateChunks (emitRecords rs))]⟩
      ("BodyText/Section" ++ Nat.repr (0 + 1)) = true) from by
      rw [show CfbReader.stream_exists ⟨[
      ("FileHeader", writerFileHeader),
      ("DocInfo", deflateChunks (emitRecords writerDocInfoRecords)),
      ("BodyText/Section0", deflateChunks (emitRecords rs))]⟩
        ("BodyText/Section" ++ Nat.repr (0 + 1)) = false from rfl]
      simp)]
    rw [show (pure [] : Except HwpError (List BodyText)) = .ok [] from rfl]
    rw [except_bind_ok]
    rfl
  unfold HwpReader.parse_document
  rw [show CfbReader.read_stream ⟨[
      ("FileHeader", writerFileHeader),
      ("DocInfo", deflateChunks (emitRecords writerDocInfoRecords)),
      ("BodyText/Section0", deflateChunks (emitRecords rs))]⟩ "FileHeader" =
    .ok writerFileHeader from rfl]
  rw [except_bind_ok]
  rw [show FileHeader.parse writerFileHeader =
    .ok (⟨83886848, 1, writerFileHeader⟩ : FileHeader) from by decide]
  rw [except_bind_ok]
  rw [if_neg (by decide :
    ¬((⟨83886848, 1, writerFileHeader⟩ : FileHeader).is_encrypted = true))]
  rw [if_neg (by decide :
    ¬((⟨83886848, 1, writerFileHeader⟩ : FileHeader).is_distribute = true))]
  rw [show (pure none : Except HwpError (Option (List Nat))) =
    .ok none from rfl]
  simp only []
  rw [except_bind_ok]
  rw [show CfbReader.read_stream ⟨[
      ("FileHeader", writerFileHeader),
      ("DocInfo", deflateChunks (emitRecords writerDocInfoRecords)),
      ("BodyText/Section0", deflateChunks (emitRecords rs))]⟩ "DocInfo" =
    .ok (deflateChunks (emitRecords writerDocInfoRecords)) from rfl]
  rw [except_bind_ok]
  rw [show HwpReader.decrypt_stream
    (deflateChunks (emitRecords writerDocInfoRecords))
    ⟨83886848, 1, writerFileHeader⟩ none =
    .ok (deflateChunks (emitRecords writerDocInfoRecords)) from rfl]
  rw [except_bind_ok]
  rw [show DocInfoParser.parse
    (deflateChunks (emitRecords writerDocInfoRecords))
    (⟨83886848, 1, writerFileHeader⟩ : FileHeader).is_compressed =
    .ok ⟨writerDocInfoRecords⟩ from by decide]
  rw [except_bind_ok]
  rw [show (if (⟨83886848, 1, writerFileHeader⟩ : FileHeader).is_distribute =
    true then "ViewText/Section" else "BodyText/Section") = "BodyText/Section"
    from by decide]
  rw [hcoll, except_bind_ok]
  rw [if_neg (by simp :
    ¬(([(⟨buildParas none rs⟩ : BodyText)].isEmpty) = true))]
  rfl


/-! ### Ordered containment in joined text -/

theorem containsInOrderB_append_left (ps : List (List Char)) (l s : List Char)
    (h : containsInOrderB ps s = true) :
    containsInOrderB ps (l ++ s) = true := by
  cases ps with
  | nil => rfl
  | cons p ps =>
    rw [containsInOrderB, List.any_eq_true] at h ⊢
    obtain ⟨i, hi, hf⟩ := h
    rw [List.mem_range] at hi
    rw [Bool.and_eq_true] at hf
    obtain ⟨htake, hrest⟩ := hf
    refine ⟨l.length + i, ?_, ?_⟩
    · rw [List.mem_range, List.length_append]
      omega
    · rw [Bool.and_eq_true]
      constructor
      · rw [List.drop_append]
        exact htake
      · rw [show l.length + i + p.length = l.length + (i + p.length) from by
          omega]
        rw [List.drop_append]
        exact hrest

theorem containsInOrderB_joinNl (ps : List (List Char)) :
    containsInOrderB ps (joinNl ps) = true := by
  induction ps with
  | nil => rfl
  | cons p ps ih =>
    rw [containsInOrderB, List.any_eq_true]
    refine ⟨0, ?_, ?_⟩
    · rw [List.mem_range]
      omega
    · rw [Bool.and_eq_true]
      cases ps with
      | nil =>
        constructor
        · rw [show joinNl [p] = p from rfl, List.drop_zero, List.take_length]
          simp
        · rfl
      | cons q ps2 =>
        have hjoin : joinNl (p :: q :: ps2) = p ++ '\n' :: joinNl (q :: ps2) :=
          rfl
        rw [hjoin]
        constructor
        · rw [List.drop_zero, List.take_left]
          simp
        · rw [Nat.zero_add]
          rw [show ('\n' :: joinNl (q :: ps2) : List Char) =
            ['\n'] ++ joinNl (q :: ps2) from rfl]
          rw [List.drop_left]
          exact containsInOrderB_append_left (q :: ps2) ['\n']
            (joinNl (q :: ps2)) ih

set_option maxRecDepth 40000 in
/-- C1 (amended): for every sequence of paragraphs whose characters carry
no in-band control code units other than newline and carriage return —
controls below 0x20 are consumed as 8-code-unit inline-object markers by
the BodyText decoder (§4.7), so they cannot round-trip — and which fit
the 32-bit record size field, reading the writer-produced container back
yields a document whose extracted text contains every added paragraph, in
order. -/
theorem c1_roundtrip_contains_in_order (ps : List (List Char))
    (hclean : ∀ p ∈ ps, ∀ c ∈ p,
      32 ≤ c.toNat ∨ c.toNat = 10 ∨ c.toNat = 13)
    (hsize : ∀ p ∈ ps, p.length < 1073741824) :
    ∃ doc, HwpReader.from_bytes (writerOf ps).to_bytes = .ok doc ∧
      containsInOrderB ps doc.extract_text = true := by
  have hwf : ∀ r ∈ ps.flatMap paraRecords, r.wf := by
    intro r hr
    rw [List.mem_flatMap] at hr
    obtain ⟨p, hp, hrp⟩ := hr
    exact paraRecords_wf p (hsize p hp) r hrp
  have hto : (writerOf ps).to_bytes = ⟨[
      ("FileHeader", writerFileHeader),
      ("DocInfo", deflateChunks (emitRecords writerDocInfoRecords)),
      ("BodyText/Section0",
        deflateChunks (emitRecords (ps.flatMap paraRecords)))]⟩ := by
    unfold HwpWriter.to_bytes
    rw [writerOf_paragraphs]
  have hparse := parse_writer_container (ps.flatMap paraRecords) hwf
  have hbuild : buildParas none (ps.flatMap paraRecords) = ps := by
    rw [buildParas_none_flatMap]
    calc ps.map (fun p => decodeParaText (utf16leBytes (strUtf16 p)))
        = ps.map id := List.map_congr_left (fun p hp =>
          decodeParaText_roundtrip p (hclean p hp))
      _ = ps := List.map_id ps
  refine ⟨⟨⟨83886848, 1, writerFileHeader⟩, ⟨writerDocInfoRecords⟩, [⟨ps⟩],
    none, none, none⟩, ?_, ?_⟩
  · unfold HwpReader.from_bytes
    rw [hto, hparse, hbuild]
  · have hex : HwpDocument.extract_text ⟨⟨83886848, 1, writerFileHeader⟩,
        ⟨writerDocInfoRecords⟩, [⟨ps⟩], none, none, none⟩ = joinNl ps := by
      simp [HwpDocument.extract_text]
    rw [hex]
    exact containsInOrderB_joinNl ps

set_option maxRecDepth 40000 in
theorem c1_roundtrip_contains_in_order_witness :
    (∀ p ∈ [['a'], ['b']], ∀ c ∈ p,
      32 ≤ c.toNat ∨ c.toNat = 10 ∨ c.toNat = 13) ∧
    (∀ p ∈ [['a'], ['b']], p.length < 1073741824) ∧
    (∃ doc, HwpReader.from_bytes
        (writerOf [['a'], ['b']]).to_bytes = .ok doc ∧
      containsInOrderB [['a'], ['b']] doc.extract_text = true) :=
  ⟨by decide, by decide,
    c1_roundtrip_contains_in_order [['a'], ['b']] (by decide) (by decide)⟩

set_option maxRecDepth 100000 in
/-- C1, as stated, is false: a paragraph containing an inline-object
control code unit (here a tab, which the BodyText decoder of §4.7 skips
together with seven parameter code units) does not survive the
round-trip, so the extracted text does not contain it. -/
theorem c1_counterexample_control_char :
    Except.map HwpDocument.extract_text
        (HwpReader.from_bytes (writerOf
          [['\t', '!', '!', '!', '!', '!', '!', '!', 'a']]).to_bytes) =
      .ok ['a'] ∧
    containsInOrderB [['\t', '!', '!', '!', '!', '!', '!', '!', 'a']] ['a'] =
      false := by
  constructor
  · decide
  · decide

end Hwpers
